import Mathlib

/-!
Verification development for the mcstrings tool (github.com/bwkimmel/mcstrings).

The tool manipulates string leaves inside Minecraft region files.  This file
gives a shallow embedding of the core algorithms in Lean and proves, or
refutes, a list of behavioural claims about them:

  - coordinate math (chunkPos),
  - the NBT string enumeration (findStrings, join) of the extract command,
  - the NBT path mutator (patchString) of the patch command,
  - the chunk reader (readChunk) shared by extract and patch,
  - the chunk loader and writer (loadChunk, saveChunk) of the patch command,
  - the region compactor (compactRegion) of the compact command.

Go strings are modelled as lists of characters, Go byte files as lists of
4096-byte sectors (lists of natural numbers).  External collaborators
(gzip/zlib compression and the third-party NBT codec) are opaque in the
source as well; they enter the model as explicit function parameters.
-/

namespace Mcstrings

/-- Go strings, modelled as lists of characters. -/
abbrev Str := List Char

/-- Model of Go strings.Split(s, sep) for a single-character separator:
splitting the empty string yields one empty field, and every separator
starts a new field. -/
def splitOnChar (sep : Char) : Str → List Str
  | [] => [[]]
  | c :: cs =>
    if c = sep then
      [] :: splitOnChar sep cs
    else
      match splitOnChar sep cs with
      | [] => [[c]]
      | g :: gs => (c :: g) :: gs

/-- Model of the path-segment joiner join(a, b) from extract.go: empty
suffixes vanish, bracketed suffixes concatenate, others get a slash. -/
def join (a b : Str) : Str :=
  match b with
  | [] => a
  | c :: _ => if c = '[' then a ++ b else a ++ '/' :: b

/-- Decimal digit character for a value below ten, as produced by Go
fmt.Sprintf with the %d verb. -/
def digitCh (n : Nat) : Char :=
  Char.ofNat (48 + n)

/-- Fueled helper for decimal rendering; the fuel only serves termination
and any fuel above the number of digits gives the same answer. -/
def natToDecAux : Nat → Nat → Str
  | 0, _ => []
  | fuel + 1, n =>
    if n < 10 then [digitCh n]
    else natToDecAux fuel (n / 10) ++ [digitCh (n % 10)]

/-- Decimal rendering of a natural number, the model of Go %d output for
non-negative list indices. -/
def natToDec (n : Nat) : Str :=
  natToDecAux (n + 1) n

/-- Numeric value of a decimal digit string, the model of strconv.Atoi on
an all-digit input.  (Atoi overflow on absurdly long digit strings is not
modelled; every such index is out of range for any actual list anyway.) -/
def decVal (s : Str) : Nat :=
  s.foldl (fun acc c => acc * 10 + (c.toNat - 48)) 0

/-- Character class test used by the dirRE regular expression for the name
part: any character other than the slash and the opening bracket. -/
def isNameCh (c : Char) : Bool :=
  c != '/' && c != '['

/-- Decimal digit test, matching the regular expression class \d. -/
def isDigitCh (c : Char) : Bool :=
  (48 ≤ c.toNat) && (c.toNat ≤ 57)

/-- Model of matching one path component against the anchored regular
expression dirRE = ^([^/\[]+)(?:\[(\d+)\])?$ from the patch command.  The
name group is necessarily the maximal run of name characters, after which
the input must either end or consist of exactly one bracketed nonempty
digit group. -/
def parseComponent (s : Str) : Option (Str × Option Nat) :=
  let name := s.takeWhile isNameCh
  let rest := s.drop name.length
  if name.isEmpty then none
  else
    match rest with
    | [] => some (name, none)
    | '[' :: rest1 =>
      let digits := rest1.takeWhile isDigitCh
      if digits.isEmpty then none
      else if rest1.drop digits.length = [']'] then some (name, some (decVal digits))
      else none
    | _ => none

/-- Translation of chunkPos from the patch engine (part_000): region
coordinates and in-region slot coordinates of a world chunk coordinate.
Go integer division and remainder truncate toward zero, which Int.tdiv and
Int.tmod mirror; the two conditionals reproduce the negative-remainder
adjustment of the source. -/
def chunkPos (x z : Int) : Int × Int × Int × Int :=
  let rx := Int.tdiv x 32
  let rz := Int.tdiv z 32
  let dx := Int.tmod x 32
  let dz := Int.tmod z 32
  let rx1 := if dx < 0 then rx - 1 else rx
  let dx1 := if dx < 0 then dx + 32 else dx
  let rz1 := if dz < 0 then rz - 1 else rz
  let dz1 := if dz < 0 then dz + 32 else dz
  (rx1, rz1, dx1, dz1)

/-- Truncating remainder by 32 lies strictly between -32 and 32. -/
theorem tmod32_bounds (x : Int) : -32 < Int.tmod x 32 ∧ Int.tmod x 32 < 32 := by
  have h := Int.tdiv_add_tmod x 32
  rcases le_or_lt 0 x with hx | hx
  · have h1 := Int.tmod_nonneg 32 hx
    have h2 := Int.tmod_lt_of_pos x (b := 32) (by norm_num)
    omega
  · have hd : Int.tmod x 32 = x - 32 * Int.tdiv x 32 := by
      have := Int.tmod_def x 32
      omega
    have h3 : Int.tdiv x 32 = - Int.tdiv (-x) 32 := by
      rw [Int.neg_tdiv]
      omega
    have h4 := Int.tdiv_add_tmod (-x) 32
    have h5 := Int.tmod_nonneg 32 (a := -x) (by omega)
    have h6 := Int.tmod_lt_of_pos (-x) (b := 32) (by norm_num)
    omega

/-- C9: for all integers x and z, chunkPos(x, z) = (rx, rz, dx, dz)
satisfies rx*32 + dx = x, rz*32 + dz = z and 0 ≤ dx, dz < 32 (flooring
semantics, negatives wrap forward); in particular
chunkPos(-1, -1) = (-1, -1, 31, 31). -/
theorem chunkPos_correct (x z : Int) :
    (chunkPos x z).1 * 32 + (chunkPos x z).2.2.1 = x ∧
    (chunkPos x z).2.1 * 32 + (chunkPos x z).2.2.2 = z ∧
    0 ≤ (chunkPos x z).2.2.1 ∧ (chunkPos x z).2.2.1 < 32 ∧
    0 ≤ (chunkPos x z).2.2.2 ∧ (chunkPos x z).2.2.2 < 32 ∧
    chunkPos (-1) (-1) = (-1, -1, 31, 31) := by
  have hx := tmod32_bounds x
  have hz := tmod32_bounds z
  have hdx := Int.tdiv_add_tmod x 32
  have hdz := Int.tdiv_add_tmod z 32
  refine ⟨?_, ?_, ?_, ?_, ?_, ?_, by decide⟩ <;>
    (simp only [chunkPos]; split <;> omega)

/-- NBT trees as they appear through the Go NBT codec: a decoded chunk is a
map from names to values (compound), values may be lists, strings, or
numeric/array leaves.  Only string leaves matter to the tool; every other
leaf kind is transported opaquely and is collapsed here into `other`
(distinct payloads model distinct opaque leaves).  Go maps are modelled as
key-value lists whose keys are distinct. -/
inductive Nbt where
  | str : Str → Nbt
  | compound : List (Str × Nbt) → Nbt
  | list : List Nbt → Nbt
  | other : Nat → Nbt
deriving Repr, Inhabited

/-- Byte-lexicographic string order, the order used by Go sort.Strings on
the keys of a compound. -/
def leStr : Str → Str → Bool
  | [], _ => true
  | _ :: _, [] => false
  | a :: as, b :: bs =>
    if a.toNat < b.toNat then true
    else if b.toNat < a.toNat then false
    else leStr as bs

/-- Ordered insertion of one compound entry by key. -/
def insertEntry (e : Str × Nbt) : List (Str × Nbt) → List (Str × Nbt)
  | [] => [e]
  | f :: fs => if leStr e.1 f.1 then e :: f :: fs else f :: insertEntry e fs

/-- Insertion sort of compound entries by key: the model of collecting a Go
map's keys, sorting them with sort.Strings and looking each key up. -/
def sortEntries : List (Str × Nbt) → List (Str × Nbt)
  | [] => []
  | e :: es => insertEntry e (sortEntries es)

/-- Ordered insertion preserves sizeOf. -/
theorem sizeOf_insertEntry (e : Str × Nbt) (l : List (Str × Nbt)) :
    sizeOf (insertEntry e l) = sizeOf (e :: l) := by
  induction l with
  | nil => rfl
  | cons f fs ih =>
    simp only [insertEntry]
    split
    · rfl
    · simp only [List.cons.sizeOf_spec] at *
      omega

/-- Sorting compound entries preserves sizeOf. -/
theorem sizeOf_sortEntries (l : List (Str × Nbt)) :
    sizeOf (sortEntries l) = sizeOf l := by
  induction l with
  | nil => rfl
  | cons e es ih =>
    simp only [sortEntries, sizeOf_insertEntry, List.cons.sizeOf_spec]
    omega

mutual

/-- Translation of findStrings from extract.go: enumerate every string
leaf of an NBT value together with its path.  Compound keys are visited in
sorted order, list elements in index order; paths are assembled with
join. -/
def findStrings : Nbt → List (Str × Str)
  | .str s => [([], s)]
  | .compound m => findStringsEntries (sortEntries m)
  | .list xs => findStringsElems 0 xs
  | .other _ => []
termination_by t => sizeOf t
decreasing_by
  all_goals simp_arith [sizeOf_sortEntries]

/-- Compound half of findStrings: recurse into each entry of the sorted
key-value list, prefixing the key via join. -/
def findStringsEntries : List (Str × Nbt) → List (Str × Str)
  | [] => []
  | (k, v) :: rest =>
    (findStrings v).map (fun pv => (join k pv.1, pv.2)) ++ findStringsEntries rest
termination_by l => sizeOf l
decreasing_by
  all_goals simp_arith

/-- List half of findStrings: recurse into each element, prefixing the
bracketed decimal index via join. -/
def findStringsElems : Nat → List Nbt → List (Str × Str)
  | _, [] => []
  | i, x :: xs =>
    (findStrings x).map (fun pv => (join ('[' :: (natToDec i ++ [']'])) pv.1, pv.2))
      ++ findStringsElems (i + 1) xs
termination_by _ l => sizeOf l
decreasing_by
  all_goals simp_arith

end

/-- Go map lookup on the key-value list model: elem, ok := compound[key]. -/
def lookupC : List (Str × Nbt) → Str → Option Nbt
  | [], _ => none
  | (k, v) :: rest, key => if k = key then some v else lookupC rest key

/-- Go map assignment on the key-value list model: compound[key] = v
replaces an existing binding and otherwise adds one. -/
def updateC : List (Str × Nbt) → Str → Nbt → List (Str × Nbt)
  | [], key, v => [(key, v)]
  | (k, w) :: rest, key, v =>
    if k = key then (key, v) :: rest else (k, w) :: updateC rest key v

/-- Error outcomes of patchString, one per fmt.Errorf site in the source
(messages abstracted to constructors). -/
inductive PatchErr where
  | parseErr
  | notCompound
  | notFound
  | notList
  | outOfBounds
  | notString
deriving DecidableEq, Repr

/-- Result of one patchString call: the chunk tree afterwards, the number
of updates-counter increments (zero or one), and the error if any. -/
structure PatchOut where
  nbt : Nbt
  updates : Nat
  err : Option PatchErr

/-- Loop body of patchString from part_000, one iteration per path part.
The Go loop descends with a node cursor and remembers a set closure that
writes the new value into the container slot holding the cursor; since
maps and slices are reference types, calling it rewrites the whole tree.
Here setF is the whole tree as it would be after calling set (initially
root, modelling the initial no-op closure), and embed places a replacement
for the cursor node back into the whole tree.  No mutation happens until
the terminal string check passes, exactly as in the source. -/
def patchWalk (value : Str) (root : Nbt) :
    Nbt → Nbt → (Nbt → Nbt) → List Str → PatchOut
  | node, setF, _, [] =>
    (match node with
     | .str old => if old = value then ⟨root, 0, none⟩ else ⟨setF, 1, none⟩
     | _ => ⟨root, 0, some .notString⟩)
  | node, _, embed, part :: rest =>
    (match parseComponent part with
     | none => ⟨root, 0, some .parseErr⟩
     | some (name, idxO) =>
       match node with
       | .compound m =>
         (match lookupC m name with
          | none => ⟨root, 0, some .notFound⟩
          | some elem =>
            let embed1 := fun nd => embed (.compound (updateC m name nd))
            match idxO with
            | none => patchWalk value root elem (embed1 (.str value)) embed1 rest
            | some i =>
              (match elem with
               | .list xs =>
                 if h : i < xs.length then
                   let embed2 := fun nd => embed1 (.list (xs.set i nd))
                   patchWalk value root (xs.get ⟨i, h⟩) (embed2 (.str value)) embed2 rest
                 else ⟨root, 0, some .outOfBounds⟩
               | _ => ⟨root, 0, some .notList⟩))
       | _ => ⟨root, 0, some .notCompound⟩)

/-- Translation of patchString from part_000: split the path on slashes
and run the walker over the parts.  (strconv.Atoi on the digit group of a
component cannot fail apart from overflow, which the unbounded naturals of
the model absorb; a huge index is out of range for any actual list.) -/
def patchString (root : Nbt) (path value : Str) : PatchOut :=
  patchWalk value root root root (fun nd => nd) (splitOnChar '/' path)

/-- Read-only mirror of the walker's navigation: the string leaf a parts
list resolves to, or the error the walk raises.  Used to state claims
about patchString relative to the value currently stored at a path. -/
def resolvePath : Nbt → List Str → Except PatchErr Str
  | node, [] =>
    (match node with
     | .str old => .ok old
     | _ => .error .notString)
  | node, part :: rest =>
    (match parseComponent part with
     | none => .error .parseErr
     | some (name, idxO) =>
       match node with
       | .compound m =>
         (match lookupC m name with
          | none => .error .notFound
          | some elem =>
            match idxO with
            | none => resolvePath elem rest
            | some i =>
              (match elem with
               | .list xs =>
                 if h : i < xs.length then resolvePath (xs.get ⟨i, h⟩) rest
                 else .error .outOfBounds
               | _ => .error .notList))
       | _ => .error .notCompound)

/-- Primitive navigation step inside an NBT tree: enter a compound under a
key, or enter a list at an index.  A parsed path component NAME[IDX]
contributes two steps. -/
inductive Step where
  | key : Str → Step
  | idx : Nat → Step
deriving DecidableEq, Repr

/-- Tree addresses as lists of navigation steps. -/
abbrev Loc := List Step

/-- Subtree of an NBT tree at an address, if the address resolves. -/
def getLoc : Nbt → Loc → Option Nbt
  | t, [] => some t
  | .compound m, .key k :: rest =>
    (match lookupC m k with
     | some v => getLoc v rest
     | none => none)
  | .list xs, .idx i :: rest =>
    (match xs[i]? with
     | some v => getLoc v rest
     | none => none)
  | _, _ => none

/-- Replace the subtree at an address by a string leaf, leaving the tree
untouched wherever the address does not resolve. -/
def setLoc : Nbt → Loc → Str → Nbt
  | _, [], v => .str v
  | .compound m, .key k :: rest, v =>
    (match lookupC m k with
     | some e => .compound (updateC m k (setLoc e rest v))
     | none => .compound m)
  | .list xs, .idx i :: rest, v =>
    if h : i < xs.length then .list (xs.set i (setLoc (xs.get ⟨i, h⟩) rest v))
    else .list xs
  | t, _, _ => t

mutual

/-- Shape of an NBT tree: the tree with every string content erased.  Two
trees with the same shape have the same compound keys, the same list
lengths and the same node kinds everywhere. -/
def shapeOf : Nbt → Nbt
  | .str _ => .str []
  | .compound m => .compound (shapeEntries m)
  | .list xs => .list (shapeElems xs)
  | .other n => .other n

/-- Shape of a compound entry list. -/
def shapeEntries : List (Str × Nbt) → List (Str × Nbt)
  | [] => []
  | (k, v) :: rest => (k, shapeOf v) :: shapeEntries rest

/-- Shape of a list of elements. -/
def shapeElems : List Nbt → List Nbt
  | [] => []
  | x :: xs => shapeOf x :: shapeElems xs

end

/-- Address denoted by a list of path parts, when every part parses under
dirRE: a component NAME yields a key step and a component NAME[IDX] yields
a key step followed by an index step. -/
def partsLoc : List Str → Option Loc
  | [] => some []
  | p :: rest =>
    (match parseComponent p, partsLoc rest with
     | some (n, none), some l => some (.key n :: l)
     | some (n, some i), some l => some (.key n :: .idx i :: l)
     | _, _ => none)

/-- Navigation of the patchString walker, read-only, returning both the
address reached and the string found there (or the error raised). -/
def resolveLoc : Nbt → List Str → Except PatchErr (Loc × Str)
  | node, [] =>
    (match node with
     | .str old => .ok ([], old)
     | _ => .error .notString)
  | node, part :: rest =>
    (match parseComponent part with
     | none => .error .parseErr
     | some (name, idxO) =>
       match node with
       | .compound m =>
         (match lookupC m name with
          | none => .error .notFound
          | some elem =>
            match idxO with
            | none =>
              (resolveLoc elem rest).map (fun lo => (.key name :: lo.1, lo.2))
            | some i =>
              (match elem with
               | .list xs =>
                 if h : i < xs.length then
                   (resolveLoc (xs.get ⟨i, h⟩) rest).map
                     (fun lo => (.key name :: .idx i :: lo.1, lo.2))
                 else .error .outOfBounds
               | _ => .error .notList))
       | _ => .error .notCompound)

/-- Writing back the value a key already holds leaves the entry list
unchanged, like a Go map assignment of the looked-up value. -/
theorem updateC_self {m : List (Str × Nbt)} {k : Str} {e : Nbt}
    (h : lookupC m k = some e) : updateC m k e = m := by
  induction m with
  | nil => simp [lookupC] at h
  | cons f fs ih =>
    obtain ⟨k0, v0⟩ := f
    by_cases hk : k0 = k
    · subst hk
      simp [lookupC] at h
      simp [updateC, h]
    · simp [lookupC, hk] at h
      simp [updateC, hk, ih h]

/-- Lookup after assignment of the same key. -/
theorem lookupC_updateC_self (m : List (Str × Nbt)) (k : Str) (v : Nbt) :
    lookupC (updateC m k v) k = some v := by
  induction m with
  | nil => simp [updateC, lookupC]
  | cons f fs ih =>
    obtain ⟨k0, v0⟩ := f
    by_cases hk : k0 = k
    · subst hk
      simp [updateC, lookupC]
    · simp [updateC, lookupC, hk, ih]

/-- Lookup of a different key is unaffected by an assignment. -/
theorem lookupC_updateC_ne (m : List (Str × Nbt)) {k k2 : Str} (v : Nbt)
    (h : k2 ≠ k) : lookupC (updateC m k v) k2 = lookupC m k2 := by
  induction m with
  | nil => simp [updateC, lookupC, Ne.symm h]
  | cons f fs ih =>
    obtain ⟨k0, v0⟩ := f
    by_cases hk : k0 = k
    · subst hk
      simp [updateC, lookupC, Ne.symm h]
    · simp [updateC, lookupC, hk, ih]

/-- Writing an element back to its own position is the identity. -/
theorem set_get_self (xs : List Nbt) (i : Nat) (h : i < xs.length) :
    xs.set i (xs.get ⟨i, h⟩) = xs := by
  induction xs generalizing i with
  | nil => simp at h
  | cons x xs ih =>
    cases i with
    | zero => rfl
    | succ n =>
      simp only [List.set, List.get, List.cons.injEq, true_and]
      exact ih n (by simpa using h)

/-- Characterization of the patchString loop: called with a cursor that
embeds back to the whole tree, it returns exactly what the read-only
navigation prescribes -- the error with nothing changed, an unchanged tree
when the addressed string already equals the new value, and otherwise the
tree with that one address overwritten and one updates increment. -/
theorem patchWalk_spec (value : Str) (root : Nbt) :
    ∀ (parts : List Str) (node : Nbt) (embed : Nbt → Nbt), embed node = root →
      patchWalk value root node (embed (.str value)) embed parts =
        (match resolveLoc node parts with
         | .error e => ⟨root, 0, some e⟩
         | .ok lo =>
           if lo.2 = value then ⟨root, 0, none⟩
           else ⟨embed (setLoc node lo.1 value), 1, none⟩) := by
  intro parts
  induction parts with
  | nil =>
    intro node embed hroot
    cases node <;> simp [patchWalk, resolveLoc, setLoc, hroot]
  | cons part rest ih =>
    intro node embed hroot
    simp only [patchWalk, resolveLoc]
    cases hp : parseComponent part with
    | none => simp [hp]
    | some nio =>
      obtain ⟨name, idxO⟩ := nio
      simp only [hp]
      cases node with
      | str s => simp
      | other n => simp
      | list xs => simp
      | compound m =>
        cases hl : lookupC m name with
        | none => simp [hl]
        | some elem =>
          simp only [hl]
          cases idxO with
          | none =>
            have hroot1 : embed (.compound (updateC m name elem)) = root := by
              rw [updateC_self hl]
              exact hroot
            have hrec := ih elem
              (fun nd => embed (.compound (updateC m name nd))) hroot1
            rw [hrec]
            cases hr : resolveLoc elem rest with
            | error e => simp [Except.map]
            | ok lo =>
              simp only [Except.map]
              split
              · rfl
              · simp [setLoc, hl]
          | some i =>
            cases elem with
            | str s2 => simp
            | other n2 => simp
            | compound m2 => simp
            | list xs =>
              simp only []
              by_cases h : i < xs.length
              · simp only [h, dite_true]
                have hroot2 :
                    (fun nd => embed (.compound (updateC m name (.list (xs.set i nd)))))
                      (xs.get ⟨i, h⟩) = root := by
                  simp only [set_get_self]
                  rw [updateC_self hl]
                  exact hroot
                have hrec := ih (xs.get ⟨i, h⟩)
                  (fun nd => embed (.compound (updateC m name (.list (xs.set i nd))))) hroot2
                rw [hrec]
                cases hr : resolveLoc (xs.get ⟨i, h⟩) rest with
                | error e => simp [Except.map]
                | ok lo =>
                  simp only [Except.map]
                  split
                  · rfl
                  · simp [setLoc, hl, h]
              · simp [h]

/-- Read-only navigation agrees with the address-producing navigation. -/
theorem resolvePath_eq (node : Nbt) (parts : List Str) :
    resolvePath node parts = (resolveLoc node parts).map Prod.snd := by
  induction parts generalizing node with
  | nil => cases node <;> simp [resolvePath, resolveLoc, Except.map]
  | cons part rest ih =>
    simp only [resolvePath, resolveLoc]
    cases hp : parseComponent part with
    | none => simp [Except.map]
    | some nio =>
      obtain ⟨name, idxO⟩ := nio
      cases node with
      | str s => simp [Except.map]
      | other n => simp [Except.map]
      | list xs => simp [Except.map]
      | compound m =>
        cases hl : lookupC m name with
        | none => simp [hl, Except.map]
        | some elem =>
          simp only [hl]
          cases idxO with
          | none =>
            rw [ih]
            cases resolveLoc elem rest <;> simp [Except.map]
          | some i =>
            cases elem with
            | str s2 => simp [Except.map]
            | other n2 => simp [Except.map]
            | compound m2 => simp [Except.map]
            | list xs =>
              simp only []
              by_cases h : i < xs.length
              · simp only [h, dite_true]
                rw [ih]
                cases resolveLoc (xs.get ⟨i, h⟩) rest <;> simp [Except.map]
              · simp [h, Except.map]

/-- Splitting never produces an empty list of fields. -/
theorem splitOnChar_ne_nil (sep : Char) (s : Str) : splitOnChar sep s ≠ [] := by
  cases s with
  | nil => simp [splitOnChar]
  | cons c cs =>
    simp only [splitOnChar]
    split
    · simp
    · split <;> simp

/-- Result of patchString expressed through the read-only navigation. -/
theorem patchString_eq (t : Nbt) (path value : Str) :
    patchString t path value =
      (match resolveLoc t (splitOnChar '/' path) with
       | .error e => ⟨t, 0, some e⟩
       | .ok lo =>
         if lo.2 = value then ⟨t, 0, none⟩
         else ⟨setLoc t lo.1 value, 1, none⟩) := by
  have hne := splitOnChar_ne_nil '/' path
  obtain ⟨p, rest, hparts⟩ :
      ∃ p rest, splitOnChar '/' path = p :: rest := by
    cases hsp : splitOnChar '/' path with
    | nil => exact absurd hsp hne
    | cons p rest => exact ⟨p, rest, rfl⟩
  have hirrel :
      patchWalk value t t t (fun nd => nd) (p :: rest) =
        patchWalk value t t ((fun nd => nd) (Nbt.str value)) (fun nd => nd) (p :: rest) := rfl
  have hspec := patchWalk_spec value t (p :: rest) t (fun nd => nd) rfl
  unfold patchString
  rw [hparts, hirrel, hspec]

/-- C6: mutation is atomic on error.  Whenever patchString reports an
error (unparseable component, non-compound prefix, missing key, non-list
node under an index, index out of range, or terminal non-string), the tree
is completely unchanged and the updates counter is not incremented. -/
theorem patchString_error_no_mutation (t : Nbt) (path value : Str)
    (h : (patchString t path value).err.isSome = true) :
    (patchString t path value).nbt = t ∧ (patchString t path value).updates = 0 := by
  rw [patchString_eq] at h ⊢
  cases hr : resolveLoc t (splitOnChar '/' path) with
  | error e => simp [hr]
  | ok lo =>
    rw [hr] at h
    by_cases hv : lo.2 = value
    · simp [hv] at h
    · simp [hv] at h

/-- Patching a string leaf with the value it already holds succeeds,
leaves the tree unchanged and does not touch the updates counter. -/
theorem patchString_noop (t : Nbt) (path value : Str)
    (h : resolvePath t (splitOnChar '/' path) = .ok value) :
    patchString t path value = ⟨t, 0, none⟩ := by
  rw [resolvePath_eq] at h
  rw [patchString_eq]
  cases hr : resolveLoc t (splitOnChar '/' path) with
  | error e => simp [hr, Except.map] at h
  | ok lo =>
    rw [hr] at h
    simp [Except.map] at h
    simp [h]

/-- Navigation success means the address holds the reported string. -/
theorem getLoc_of_resolveLoc :
    ∀ (parts : List Str) (node : Nbt) (loc : Loc) (old : Str),
      resolveLoc node parts = .ok (loc, old) → getLoc node loc = some (.str old) := by
  intro parts
  induction parts with
  | nil =>
    intro node loc old h
    cases node <;> simp [resolveLoc] at h
    obtain ⟨h1, h2⟩ := h
    subst h1
    subst h2
    simp [getLoc]
  | cons part rest ih =>
    intro node loc old h
    simp only [resolveLoc] at h
    cases hp : parseComponent part with
    | none => simp [hp] at h
    | some nio =>
      obtain ⟨name, idxO⟩ := nio
      simp only [hp] at h
      cases node with
      | str s => simp at h
      | other n => simp at h
      | list xs => simp at h
      | compound m =>
        cases hl : lookupC m name with
        | none => simp [hl] at h
        | some elem =>
          simp only [hl] at h
          cases idxO with
          | none =>
            simp only [] at h
            cases hr : resolveLoc elem rest with
            | error e => simp [hr, Except.map] at h
            | ok lo =>
              simp only [hr] at h
              simp [Except.map] at h
              obtain ⟨h1, h2⟩ := h
              subst h1
              subst h2
              simpa [getLoc, hl] using ih elem lo.1 lo.2 (by simp [hr])
          | some i =>
            cases elem with
            | str s2 => simp at h
            | other n2 => simp at h
            | compound m2 => simp at h
            | list xs =>
              simp only [] at h
              by_cases hi : i < xs.length
              · simp only [dif_pos hi] at h
                cases hr : resolveLoc (xs.get ⟨i, hi⟩) rest with
                | error e => rw [hr] at h; simp [Except.map] at h
                | ok lo =>
                  rw [hr] at h
                  simp only [Except.map, Except.ok.injEq, Prod.mk.injEq] at h
                  obtain ⟨h1, h2⟩ := h
                  subst h1
                  subst h2
                  have := ih (xs.get ⟨i, hi⟩) lo.1 lo.2 hr
                  simp [getLoc, hl, List.getElem?_eq_getElem hi]
                  exact this
              · simp only [dif_neg hi] at h
                simp at h

/-- Navigation success means every path part parses, and the address is
the one its components denote. -/
theorem partsLoc_of_resolveLoc :
    ∀ (parts : List Str) (node : Nbt) (loc : Loc) (old : Str),
      resolveLoc node parts = .ok (loc, old) → partsLoc parts = some loc := by
  intro parts
  induction parts with
  | nil =>
    intro node loc old h
    cases node <;> simp [resolveLoc] at h
    obtain ⟨h1, _⟩ := h
    subst h1
    rfl
  | cons part rest ih =>
    intro node loc old h
    simp only [resolveLoc] at h
    cases hp : parseComponent part with
    | none => simp [hp] at h
    | some nio =>
      obtain ⟨name, idxO⟩ := nio
      simp only [hp] at h
      cases node with
      | str s => simp at h
      | other n => simp at h
      | list xs => simp at h
      | compound m =>
        cases hl : lookupC m name with
        | none => simp [hl] at h
        | some elem =>
          simp only [hl] at h
          cases idxO with
          | none =>
            simp only [] at h
            cases hr : resolveLoc elem rest with
            | error e => simp [hr, Except.map] at h
            | ok lo =>
              simp only [hr] at h
              simp [Except.map] at h
              obtain ⟨h1, _⟩ := h
              subst h1
              simp [partsLoc, hp, ih elem lo.1 lo.2 (by simp [hr])]
          | some i =>
            cases elem with
            | str s2 => simp at h
            | other n2 => simp at h
            | compound m2 => simp at h
            | list xs =>
              simp only [] at h
              by_cases hi : i < xs.length
              · simp only [dif_pos hi] at h
                cases hr : resolveLoc (xs.get ⟨i, hi⟩) rest with
                | error e => rw [hr] at h; simp [Except.map] at h
                | ok lo =>
                  rw [hr] at h
                  simp only [Except.map, Except.ok.injEq, Prod.mk.injEq] at h
                  obtain ⟨h1, _⟩ := h
                  subst h1
                  simp [partsLoc, hp, ih (xs.get ⟨i, hi⟩) lo.1 lo.2 hr]
              · simp only [dif_neg hi] at h
                simp at h

/-- Replacing the value under an existing key keeps the entry-list shape
whenever the replacement has the shape of the old value. -/
theorem shapeEntries_updateC {m : List (Str × Nbt)} {k : Str} {e e2 : Nbt}
    (hl : lookupC m k = some e) (hs : shapeOf e2 = shapeOf e) :
    shapeEntries (updateC m k e2) = shapeEntries m := by
  induction m with
  | nil => simp [lookupC] at hl
  | cons f fs ih =>
    obtain ⟨k0, v0⟩ := f
    by_cases hk : k0 = k
    · subst hk
      simp [lookupC] at hl
      subst hl
      simp [updateC, shapeEntries, hs]
    · simp [lookupC, hk] at hl
      simp [updateC, hk, shapeEntries, ih hl]

/-- Setting a list element keeps the element-list shape whenever the
replacement has the shape of the old element. -/
theorem shapeElems_set {xs : List Nbt} {i : Nat} {e2 : Nbt} (h : i < xs.length)
    (hs : shapeOf e2 = shapeOf xs[i]) :
    shapeElems (xs.set i e2) = shapeElems xs := by
  induction xs generalizing i with
  | nil => simp at h
  | cons x xs ih =>
    cases i with
    | zero =>
      simp [List.get] at hs
      simp [List.set, shapeElems, hs]
    | succ n =>
      have hn : n < xs.length := by simpa using h
      simp [List.get] at hs
      simp [List.set, shapeElems]
      exact ih hn hs

/-- Overwriting the string at a resolvable string address does not change
the shape of the tree: no keys, no lengths, no node kinds. -/
theorem shapeOf_setLoc (v : Str) :
    ∀ (loc : Loc) (t : Nbt) (old : Str),
      getLoc t loc = some (.str old) → shapeOf (setLoc t loc v) = shapeOf t := by
  intro loc
  induction loc with
  | nil =>
    intro t old h
    simp [getLoc] at h
    subst h
    simp [setLoc, shapeOf]
  | cons s rest ih =>
    intro t old h
    cases s with
    | key k =>
      cases t with
      | str s2 => simp [getLoc] at h
      | other n => simp [getLoc] at h
      | list xs => simp [getLoc] at h
      | compound m =>
        simp only [getLoc] at h
        cases hl : lookupC m k with
        | none => rw [hl] at h; simp at h
        | some e =>
          rw [hl] at h
          simp only [] at h
          simp only [setLoc, hl]
          simp [shapeOf]
          exact shapeEntries_updateC hl (ih e old h)
    | idx i =>
      cases t with
      | str s2 => simp [getLoc] at h
      | other n => simp [getLoc] at h
      | compound m => simp [getLoc] at h
      | list xs =>
        simp only [getLoc] at h
        cases hi : xs[i]? with
        | none => rw [hi] at h; simp at h
        | some e =>
          rw [hi] at h
          simp only [] at h
          have hlen : i < xs.length := by
            by_contra hc
            rw [List.getElem?_eq_none (by omega)] at hi
            exact Option.noConfusion hi
          have hg : xs[i] = e := by
            have := List.getElem?_eq_getElem hlen
            rw [hi] at this
            simpa using this.symm
          simp only [setLoc, dif_pos hlen]
          simp [shapeOf]
          exact shapeElems_set hlen (by rw [hg]; exact ih e old h)

/-- Frame property of the overwrite: after setting the string at a
resolvable address, reading any string address yields the new value there
and the untouched old value everywhere else. -/
theorem getLoc_setLoc (v : Str) :
    ∀ (loc : Loc) (t : Nbt) (old : Str), getLoc t loc = some (.str old) →
      ∀ (loc2 : Loc) (w : Str), getLoc t loc2 = some (.str w) →
        getLoc (setLoc t loc v) loc2 = some (.str (if loc2 = loc then v else w)) := by
  intro loc
  induction loc with
  | nil =>
    intro t old h loc2 w h2
    simp [getLoc] at h
    subst h
    cases loc2 with
    | nil =>
      simp [getLoc] at h2
      simp [setLoc, getLoc, h2]
    | cons s r => cases s <;> simp [getLoc] at h2
  | cons s rest ih =>
    intro t old h loc2 w h2
    cases s with
    | key k =>
      cases t with
      | str s2 => simp [getLoc] at h
      | other n => simp [getLoc] at h
      | list xs => simp [getLoc] at h
      | compound m =>
        simp only [getLoc] at h
        cases hl : lookupC m k with
        | none => rw [hl] at h; simp at h
        | some e =>
          rw [hl] at h
          simp only [] at h
          simp only [setLoc, hl]
          cases loc2 with
          | nil => simp [getLoc] at h2
          | cons s2 r2 =>
            cases s2 with
            | idx j => simp [getLoc] at h2
            | key k2 =>
              by_cases hk : k2 = k
              · subst hk
                simp only [getLoc, hl] at h2
                simp only [getLoc, lookupC_updateC_self]
                rw [ih e old h r2 w h2]
                by_cases hr2 : r2 = rest
                · simp [hr2]
                · simp [hr2]
              · simp only [getLoc] at h2 ⊢
                rw [lookupC_updateC_ne m (setLoc e rest v) hk]
                rw [if_neg (by simp [hk])]
                exact h2
    | idx i =>
      cases t with
      | str s2 => simp [getLoc] at h
      | other n => simp [getLoc] at h
      | compound m => simp [getLoc] at h
      | list xs =>
        simp only [getLoc] at h
        cases hi : xs[i]? with
        | none => rw [hi] at h; simp at h
        | some e =>
          rw [hi] at h
          simp only [] at h
          have hlen : i < xs.length := by
            by_contra hc
            rw [List.getElem?_eq_none (by omega)] at hi
            exact Option.noConfusion hi
          have hg : xs[i] = e := by
            have := List.getElem?_eq_getElem hlen
            rw [hi] at this
            simpa using this.symm
          simp only [setLoc, dif_pos hlen]
          cases loc2 with
          | nil => simp [getLoc] at h2
          | cons s2 r2 =>
            cases s2 with
            | key k2 => simp [getLoc] at h2
            | idx j =>
              by_cases hj : j = i
              · subst hj
                simp only [getLoc, hi] at h2
                simp only [getLoc, List.getElem?_set_self hlen]
                have hge : xs.get ⟨j, hlen⟩ = e := hg
                rw [hge, ih e old h r2 w h2]
                by_cases hr2 : r2 = rest
                · simp [hr2]
                · simp [hr2]
              · simp only [getLoc] at h2 ⊢
                rw [List.getElem?_set_ne (by omega)]
                rw [if_neg (by simp [hj])]
                exact h2

/-- C7: every successful patchString call replaces exactly the one string
leaf addressed by the path, and by a string: the path parses to a unique
address, that address held a string before, the shape of the tree (its
compound keys, list lengths and node kinds) is unchanged, every string
leaf other than the addressed one keeps its exact previous value, the
addressed one holds the new value, and the updates counter moves exactly
when the value changed. -/
theorem patchString_frame (t : Nbt) (path value : Str)
    (h : (patchString t path value).err = none) :
    ∃ loc old,
      partsLoc (splitOnChar '/' path) = some loc ∧
      getLoc t loc = some (.str old) ∧
      (patchString t path value).updates = (if old = value then 0 else 1) ∧
      shapeOf (patchString t path value).nbt = shapeOf t ∧
      ∀ loc2 w, getLoc t loc2 = some (.str w) →
        getLoc (patchString t path value).nbt loc2 =
          some (.str (if loc2 = loc then value else w)) := by
  cases hr : resolveLoc t (splitOnChar '/' path) with
  | error e =>
    have hps : patchString t path value = ⟨t, 0, some e⟩ := by
      rw [patchString_eq, hr]
    rw [hps] at h
    simp at h
  | ok lo =>
    have hps : patchString t path value =
        (if lo.2 = value then ⟨t, 0, none⟩
         else ⟨setLoc t lo.1 value, 1, none⟩ : PatchOut) := by
      rw [patchString_eq, hr]
    have hget := getLoc_of_resolveLoc (splitOnChar '/' path) t lo.1 lo.2 (by
      rw [hr])
    have hparts := partsLoc_of_resolveLoc (splitOnChar '/' path) t lo.1 lo.2 (by
      rw [hr])
    rw [hps]
    refine ⟨lo.1, lo.2, hparts, hget, ?_, ?_, ?_⟩
    · by_cases hv : lo.2 = value <;> simp [hv]
    · by_cases hv : lo.2 = value
      · simp [hv]
      · simp only [if_neg hv]
        exact shapeOf_setLoc value lo.1 t lo.2 hget
    · intro loc2 w h2
      by_cases hv : lo.2 = value
      · simp only [hv, if_pos rfl]
        by_cases hl2 : loc2 = lo.1
        · subst hl2
          rw [h2] at hget
          simp at hget
          simp only [if_true]
          rw [h2, hget, hv]
        · rw [if_neg hl2]
          exact h2
      · simp only [if_neg hv]
        exact getLoc_setLoc value lo.1 t lo.2 hget loc2 w h2

/-- Byte files: a Go file modelled as its list of bytes. -/
abbrev Bytes := List Nat

/-- Model of seeking to an offset and reading up to n bytes: the available
bytes there, possibly fewer than n near end of file. -/
def readBytes (f : Bytes) (off n : Nat) : Bytes :=
  (f.drop off).take n

/-- Model of seeking to an offset and writing a byte string: bytes between
the old end of file and the offset read back as zeros, like the hole a
POSIX seek-past-end write leaves. -/
def writeBytes (f : Bytes) (off : Nat) (bs : Bytes) : Bytes :=
  f.take off ++ List.replicate (off - f.length) 0 ++ bs ++ f.drop (off + bs.length)

/-- Model of truncating a file to a size, which on growth extends it with
zeros, as os.File.Truncate does. -/
def truncateFile (f : Bytes) (n : Nat) : Bytes :=
  f.take n ++ List.replicate (n - f.length) 0

/-- Big-endian 32-bit value of four bytes. -/
def beU32 (b0 b1 b2 b3 : Nat) : Nat :=
  b0 * 16777216 + b1 * 65536 + b2 * 256 + b3

/-- Big-endian bytes of a 32-bit value. -/
def u32Bytes (v : Nat) : Bytes :=
  [v / 16777216 % 256, v / 65536 % 256, v / 256 % 256, v % 256]

/-- Signed 32-bit reading of four big-endian bytes, the value binary.Read
stores into an int32. -/
def beI32 (b0 b1 b2 b3 : Nat) : Int :=
  let u := beU32 b0 b1 b2 b3
  if u < 2147483648 then (u : Int) else (u : Int) - 4294967296

/-- Error sites of the modelled Go functions, one constructor per
fmt.Errorf site (message strings abstracted). -/
inductive GErr where
  | eof
  | lenShort
  | compShort
  | dataShort
  | badCompression
  | decompressFailed
  | nbtDecodeFailed
  | locShort
  | tableShort
  | overlap
  | backward
  | sectorShort
  | noNewLoc
  | chunkTooLarge
  | notAligned
  | encodeFailed
  | headShort
deriving DecidableEq, Repr

/-- Outcome of a Go call in the model: a value, a returned error, or a
crash of the whole program (a runtime panic, which no caller observes as
an error value). -/
inductive GoResult (alpha : Type) where
  | ok : alpha → GoResult alpha
  | err : GErr → GoResult alpha
  | crash : GoResult alpha
deriving DecidableEq, Repr

/-- External collaborators of the codec path: gzip and zlib decompression
and the third-party NBT decoder.  They are opaque libraries in the source
and opaque function parameters here; none is invoked by the model on the
inputs the claims fix, or their behaviour is quantified over. -/
structure Codec where
  gunzip : Bytes → Option Bytes
  inflate : Bytes → Option Bytes
  decodeNbt : Bytes → Option (List (Str × Nbt))

/-- A codec whose collaborators always fail; enough for inputs that never
reach them. -/
def trivCodec : Codec :=
  ⟨fun _ => none, fun _ => none, fun _ => none⟩

/-- Translation of readChunk from extract.go, over the byte window the
caller hands it (the LimitedReader contents).  It reads a 4-byte signed
big-endian length, one compression byte, then allocates a buffer of
length-1 bytes: for length at or below zero that allocation is
make([]byte, negative), a runtime panic, modelled as crash.  Otherwise it
reads exactly that many bytes, selects a decompressor by the discriminant
(1 gzip, 2 zlib, 3 identity, others an error), drains it and hands the
result to the NBT decoder. -/
def readChunk (codec : Codec) (input : Bytes) : GoResult (List (Str × Nbt)) :=
  match input with
  | [] => .err .eof
  | b0 :: b1 :: b2 :: b3 :: rest =>
    let length := beI32 b0 b1 b2 b3
    (match rest with
     | [] => .err .compShort
     | c :: rest2 =>
       if length - 1 < 0 then .crash
       else
         let n := (length - 1).toNat
         if rest2.length < n then .err .dataShort
         else
           let data := rest2.take n
           (match
              (if c = 1 then (codec.gunzip data).map some
               else if c = 2 then (codec.inflate data).map some
               else if c = 3 then some (some data)
               else some none : Option (Option Bytes)) with
            | none => .err .decompressFailed
            | some none => .err .badCompression
            | some (some nbtData) =>
              (match codec.decodeNbt nbtData with
               | none => .err .nbtDecodeFailed
               | some m => .ok m)))
  | _ => .err .lenShort

/-- Decoded chunk held by the patch engine, with its update counter. -/
structure ChunkData where
  dim : Int
  x : Int
  z : Int
  nbt : List (Str × Nbt)
  updates : Nat
deriving Repr

/-- Translation of the fresh-load path of loadChunk from part_000 (the
in-memory same-chunk fast path and the flush of the previously loaded
chunk are engine-level steps modelled separately): locate the slot entry
of the chunk in its region file, seek to the addressed sectors and decode
them through readChunk.  The multiplication with 4096 wraps in uint32
exactly as in the source.  A zero location entry is not special-cased. -/
def loadChunk (codec : Codec) (f : Bytes) (dim x z : Int) : GoResult ChunkData :=
  let dxz := chunkPos x z
  let dx := dxz.2.2.1.toNat
  let dz := dxz.2.2.2.toNat
  (match readBytes f (4 * (dz * 32 + dx)) 4 with
   | [b0, b1, b2, b3] =>
     let loc := beU32 b0 b1 b2 b3
     let offset := (4096 * (loc &&& 0xffffff00) % 4294967296) >>> 8
     let size := 4096 * (loc &&& 0xff)
     (match readChunk codec (readBytes f offset size) with
      | .ok m => .ok ⟨dim, x, z, m, 0⟩
      | .err e => .err e
      | .crash => .crash)
   | _ => .err .locShort)

/-- Row of the extract CSV. -/
structure Row where
  dim : Int
  cx : Int
  cz : Int
  path : Str
  value : Str
deriving Repr

/-- Per-slot body of the location-table loop of readRegion in extract.go:
a zero location entry is skipped outright, any other entry has its sectors
decoded through readChunk and its string leaves filtered and emitted. -/
def slotRows (codec : Codec) (keep : Str → Str → Bool) (f : Bytes)
    (dim x z : Int) (i : Nat) (loc : Nat) : GoResult (List Row) :=
  if loc = 0 then .ok []
  else
    let dx := i % 32
    let dz := i / 32
    let offset := (4096 * (loc &&& 0xffffff00) % 4294967296) >>> 8
    let size := 4096 * (loc &&& 0xff)
    (match readChunk codec (readBytes f offset size) with
     | .ok m =>
       .ok ((findStrings (.compound m)).filterMap (fun pv =>
         if keep pv.1 pv.2 then
           some ⟨dim, x * 32 + (dx : Int), z * 32 + (dz : Int), pv.1, pv.2⟩
         else none))
     | .err e => .err e
     | .crash => .crash)

/-- Location-table loop of readRegion: process the enumerated slots in
order, concatenating their rows, stopping at the first failure. -/
def slotsRows (codec : Codec) (keep : Str → Str → Bool) (f : Bytes)
    (dim x z : Int) : List (Nat × Nat) → GoResult (List Row)
  | [] => .ok []
  | (i, loc) :: rest =>
    (match slotRows codec keep f dim x z i loc with
     | .ok rows =>
       (match slotsRows codec keep f dim x z rest with
        | .ok rs => .ok (rows ++ rs)
        | .err e => .err e
        | .crash => .crash)
     | .err e => .err e
     | .crash => .crash)

/-- Witness for C6 at a concrete input: patching a missing key errors and
the tree and counter are untouched. -/
theorem patchString_error_no_mutation_witness :
    ((patchString (Nbt.compound [(['a'], Nbt.str ['x'])]) ['b'] ['y']).err.isSome = true) ∧
    ((patchString (Nbt.compound [(['a'], Nbt.str ['x'])]) ['b'] ['y']).nbt =
        Nbt.compound [(['a'], Nbt.str ['x'])] ∧
      (patchString (Nbt.compound [(['a'], Nbt.str ['x'])]) ['b'] ['y']).updates = 0) :=
  ⟨rfl, patchString_error_no_mutation (Nbt.compound [(['a'], Nbt.str ['x'])]) ['b'] ['y'] rfl⟩

/-- Witness for C7 at a concrete input: successfully patching the one leaf
of a one-entry compound satisfies the frame property. -/
theorem patchString_frame_witness :
    ((patchString (Nbt.compound [(['a'], Nbt.str ['x'])]) ['a'] ['y']).err = none) ∧
    ∃ loc old,
      partsLoc (splitOnChar '/' ['a']) = some loc ∧
      getLoc (Nbt.compound [(['a'], Nbt.str ['x'])]) loc = some (.str old) ∧
      (patchString (Nbt.compound [(['a'], Nbt.str ['x'])]) ['a'] ['y']).updates =
        (if old = ['y'] then 0 else 1) ∧
      shapeOf (patchString (Nbt.compound [(['a'], Nbt.str ['x'])]) ['a'] ['y']).nbt =
        shapeOf (Nbt.compound [(['a'], Nbt.str ['x'])]) ∧
      ∀ loc2 w,
        getLoc (Nbt.compound [(['a'], Nbt.str ['x'])]) loc2 = some (.str w) →
          getLoc (patchString (Nbt.compound [(['a'], Nbt.str ['x'])]) ['a'] ['y']).nbt loc2 =
            some (.str (if loc2 = loc then ['y'] else w)) :=
  ⟨rfl, patchString_frame (Nbt.compound [(['a'], Nbt.str ['x'])]) ['a'] ['y'] rfl⟩

/-- C10: readChunk is not total on arbitrary input: a chunk stream whose
4-byte big-endian length field is zero (or negative), followed by a valid
compression discriminant, drives make([]byte, length-1) with a negative
size, a runtime panic that aborts the program instead of an error return.
This holds for every choice of the decompression and NBT collaborators,
which are never reached. -/
theorem readChunk_zero_length_crash (codec : Codec) :
    readChunk codec [0, 0, 0, 0, 2] = .crash ∧
    readChunk codec [255, 255, 255, 255, 2] = .crash :=
  ⟨rfl, rfl⟩

/-- Counterexample for C4 as stated: in a region file whose location entry
for the requested chunk is zero, the patch engine loadChunk does return a
read error (the io.EOF of reading a length from an empty window), rather
than reporting the slot as absent without failing. -/
theorem loadChunk_zero_entry_error_cex :
    readBytes (List.replicate 8192 0) 0 4 = [0, 0, 0, 0] ∧
    loadChunk trivCodec (List.replicate 8192 0) 0 0 0 = .err .eof := by
  constructor
  · rfl
  · rfl

/-- C4 (amended): a zero location entry makes extract skip the slot with
no error and no rows, while the patch engine loadChunk fails on such a
slot with the EOF read error (it does not treat the slot as absent). -/
theorem zero_location_entry_read :
    (∀ (codec : Codec) (keep : Str → Str → Bool) (f : Bytes) (dim x z : Int)
       (i : Nat) (rest : List (Nat × Nat)),
        slotsRows codec keep f dim x z ((i, 0) :: rest) =
          slotsRows codec keep f dim x z rest) ∧
    (∀ (codec : Codec) (f : Bytes) (dim x z : Int),
        readBytes f
            (4 * ((chunkPos x z).2.2.2.toNat * 32 + (chunkPos x z).2.2.1.toNat)) 4 =
          [0, 0, 0, 0] →
        loadChunk codec f dim x z = .err .eof) := by
  constructor
  · intro codec keep f dim x z i rest
    simp only [slotsRows, slotRows, if_pos rfl]
    cases slotsRows codec keep f dim x z rest <;> simp
  · intro codec f dim x z h
    simp only [loadChunk, h, beU32]
    norm_num [readBytes, readChunk]

/-- Witness for C4 (amended) at a concrete input: the all-zero region. -/
theorem zero_location_entry_read_witness :
    (slotsRows trivCodec (fun _ _ => true) (List.replicate 8192 0) 0 0 0 [(0, 0)] =
      slotsRows trivCodec (fun _ _ => true) (List.replicate 8192 0) 0 0 0 []) ∧
    loadChunk trivCodec (List.replicate 8192 0) 0 0 0 = .err .eof :=
  ⟨zero_location_entry_read.1 trivCodec (fun _ _ => true) (List.replicate 8192 0) 0 0 0 0 [],
   zero_location_entry_read.2 trivCodec (List.replicate 8192 0) 0 0 0 rfl⟩

/-- Starting sector of a location entry, the high 24 bits. -/
def locStart (loc : Nat) : Nat :=
  (loc &&& 0xffffff00) >>> 8

/-- Sector count of a location entry, the low 8 bits. -/
def locCount (loc : Nat) : Nat :=
  loc &&& 0xff

/-- Parse a byte string into big-endian 32-bit values, four bytes each:
the shape of binary.Read into a []uint32. -/
def parseLocs : Bytes → List Nat
  | b0 :: b1 :: b2 :: b3 :: rest => beU32 b0 b1 b2 b3 :: parseLocs rest
  | _ => []

/-- Serialize 32-bit values back to big-endian bytes, the shape of
binary.Write of a []uint32. -/
def serLocs (locs : List Nat) : Bytes :=
  match locs with
  | [] => []
  | v :: rest => u32Bytes v ++ serLocs rest

/-- Occupied-sector list of a location table, in the order the compactor
builds it: sectors 0 and 1 first, then every sector of every populated
entry in table order. -/
def occSectors (locs : List Nat) : List Nat :=
  [0, 1] ++ locs.flatMap (fun loc =>
    if loc = 0 then [] else List.range' (locStart loc) (locCount loc))

/-- Ascending sort on naturals, the model of the sort.Slice call of the
compactor (any correct sort produces the same ascending list). -/
def sortNats (l : List Nat) : List Nat :=
  List.insertionSort (fun a b => a ≤ b) l

/-- Adjacent-duplicate test on a sorted list, the model of the
overlapping-sector sanity check (prev starts at -1, matching nothing). -/
def hasAdjDup : List Nat → Bool
  | [] => false
  | [_] => false
  | a :: b :: rest => a = b || hasAdjDup (b :: rest)

/-- Lookup in the relocation map (a Go map from old start sector to new
start sector, -1 the placeholder). -/
def relGet : List (Nat × Int) → Nat → Option Int
  | [], _ => none
  | (k, v) :: rest, key => if k = key then some v else relGet rest key

/-- Assignment in the relocation map. -/
def relSet : List (Nat × Int) → Nat → Int → List (Nat × Int)
  | [], key, v => [(key, v)]
  | (k, w) :: rest, key, v =>
    if k = key then (key, v) :: rest else (k, w) :: relSet rest key v

/-- Initial relocation map: a -1 placeholder for the start sector of every
populated location entry. -/
def initReloc (locs : List Nat) : List (Nat × Int) :=
  locs.foldl (fun r loc => if loc = 0 then r else relSet r (locStart loc) (-1)) []

/-- Sector-copy loop of compactRegion: walk the sorted occupied sectors;
the position in the list is the sector's new index.  Record the new index
of every start sector, refuse to move a sector later in the file, skip
sectors already in place, and copy the rest downward 4096 bytes at a
time (a short read is an error). -/
def copyLoop : List (Nat × Nat) → List (Nat × Int) → Bytes →
    GoResult (List (Nat × Int) × Bytes)
  | [], reloc, f => .ok (reloc, f)
  | (i, j) :: rest, reloc, f =>
    let reloc1 := if (relGet reloc j).isSome then relSet reloc j (Int.ofNat i) else reloc
    if i > j then .err .backward
    else if i = j then copyLoop rest reloc1 f
    else
      let buf := readBytes f (j * 4096) 4096
      if buf.length ≠ 4096 then .err .sectorShort
      else copyLoop rest reloc1 (writeBytes f (i * 4096) buf)

/-- Truncating uint32 conversion of a Go int32 value. -/
def uint32OfInt (x : Int) : Nat :=
  (x % 4294967296).toNat

/-- Location-table rewrite of compactRegion: empty entries stay zero,
populated entries have their start sector replaced through the relocation
map, counts preserved. -/
def remapLocs (reloc : List (Nat × Int)) : List Nat → GoResult (List Nat)
  | [] => .ok []
  | loc :: rest =>
    if loc = 0 then
      (match remapLocs reloc rest with
       | .ok rs => .ok (0 :: rs)
       | .err e => .err e
       | .crash => .crash)
    else
      (match relGet reloc (locStart loc) with
       | none => .err .noNewLoc
       | some ns =>
         (match remapLocs reloc rest with
          | .ok rs => .ok ((uint32OfInt (ns * 256) ||| locCount loc) :: rs)
          | .err e => .err e
          | .crash => .crash))

/-- Translation of compactRegion from part_003 (compact.go differs only in
lacking the overlap check and reading the table entry-by-entry): read the
1024-entry location table, list and sort the occupied sectors, reject
overlaps, slide every occupied sector down to its index in the sorted
list, rewrite the table through the relocation map, and truncate the file
to (number of occupied sectors - 1) * 4096 bytes. -/
def compactRegion (f : Bytes) : GoResult Bytes :=
  let table := readBytes f 0 4096
  if table.length ≠ 4096 then .err .tableShort
  else
    let locs := parseLocs table
    let sectors := sortNats (occSectors locs)
    if hasAdjDup sectors then .err .overlap
    else
      (match copyLoop sectors.enum (initReloc locs) f with
       | .err e => .err e
       | .crash => .crash
       | .ok rf =>
         (match remapLocs rf.1 locs with
          | .err e => .err e
          | .crash => .crash
          | .ok locs2 =>
            .ok (truncateFile (writeBytes rf.2 0 (serLocs locs2))
              ((sectors.length - 1) * 4096))))

/-- The start field of a location entry in plain arithmetic. -/
theorem locStart_eq (v : Nat) : locStart v = v / 256 % 16777216 := by
  have h1 : locStart v = (v >>> 8) &&& 16777215 := by
    unfold locStart
    apply Nat.eq_of_testBit_eq
    intro i
    have hC : (0xffffff00 : Nat) = (16777215 : Nat) <<< 8 := by decide
    rw [Nat.testBit_shiftRight, Nat.testBit_and, Nat.testBit_and,
      Nat.testBit_shiftRight, hC, Nat.testBit_shiftLeft]
    have hsub : 8 + i - 8 = i := by omega
    rw [hsub]
    simp
  rw [h1]
  have h2 : (16777215 : Nat) = 2 ^ 24 - 1 := by decide
  rw [h2, Nat.and_pow_two_sub_one_eq_mod, Nat.shiftRight_eq_div_pow]

/-- The count field of a location entry in plain arithmetic. -/
theorem locCount_eq (v : Nat) : locCount v = v % 256 := by
  unfold locCount
  have h2 : (0xff : Nat) = 2 ^ 8 - 1 := by decide
  rw [h2, Nat.and_pow_two_sub_one_eq_mod]

/-- Bitwise or of an aligned start and a small count is their sum. -/
theorem or_eq_add256 (a b : Nat) (hb : b < 256) : a * 256 ||| b = a * 256 + b := by
  have h := Nat.mul_add_lt_is_or (i := 8) (b := b) (by omega : b < 2 ^ 8) a
  have hc : 2 ^ 8 * a = a * 256 := by ring
  rw [hc] at h
  omega

/-- A location entry below 2^32 is determined by its two fields. -/
theorem loc_fields_split (v : Nat) (h : v < 4294967296) :
    v = locStart v * 256 + locCount v := by
  rw [locStart_eq, locCount_eq]
  have : v / 256 < 16777216 := by omega
  rw [Nat.mod_eq_of_lt this]
  omega

/-- Rebuilding an entry from an in-range start and count. -/
theorem locStart_locCount_mk (s c : Nat) (hs : s < 16777216) (hc : c < 256) :
    locStart (s * 256 ||| c) = s ∧ locCount (s * 256 ||| c) = c ∧
      s * 256 ||| c < 4294967296 := by
  rw [or_eq_add256 s c hc, locStart_eq, locCount_eq]
  refine ⟨?_, ?_, ?_⟩ <;> omega

/-- Parsing four serialized bytes recovers an in-range 32-bit value. -/
theorem parseLocs_u32Bytes (v : Nat) (rest : Bytes) (h : v < 4294967296) :
    parseLocs (u32Bytes v ++ rest) = v :: parseLocs rest := by
  simp only [u32Bytes, List.cons_append, List.nil_append, parseLocs, beU32]
  congr 1
  omega

/-- Serialization then parsing is the identity on lists of 32-bit values. -/
theorem parseLocs_serLocs (ls : List Nat) (h : ∀ v ∈ ls, v < 4294967296) :
    parseLocs (serLocs ls) = ls := by
  induction ls with
  | nil => rfl
  | cons v rest ih =>
    simp only [serLocs]
    rw [parseLocs_u32Bytes v _ (h v (by simp))]
    rw [ih (fun w hw => h w (by simp [hw]))]

/-- Serialized length of a location table. -/
theorem serLocs_length (ls : List Nat) : (serLocs ls).length = 4 * ls.length := by
  induction ls with
  | nil => rfl
  | cons v rest ih =>
    simp [serLocs, u32Bytes, ih]
    omega

/-- Parsed length of a byte string. -/
theorem parseLocs_length (bs : Bytes) : (parseLocs bs).length = bs.length / 4 := by
  generalize hn : bs.length = n
  induction n using Nat.strong_induction_on generalizing bs with
  | _ n ih =>
    match bs with
    | [] => simp at hn; simp [parseLocs, ← hn]
    | [a] => simp at hn; simp [parseLocs, ← hn]
    | [a, b] => simp at hn; simp [parseLocs, ← hn]
    | [a, b, c] => simp at hn; simp [parseLocs, ← hn]
    | a :: b :: c :: d :: rest =>
      simp only [parseLocs, List.length_cons]
      rw [ih (rest.length) (by simp at hn; omega) rest rfl]
      simp at hn
      omega

/-- The sort of the compactor is a permutation of its input. -/
theorem sortNats_perm (l : List Nat) : List.Perm (sortNats l) l :=
  List.perm_insertionSort _ l

/-- The sort of the compactor sorts ascending. -/
theorem sortNats_sorted (l : List Nat) : (sortNats l).Sorted (fun a b => a ≤ b) :=
  List.sorted_insertionSort _ l

/-- An ascending list with no adjacent duplicates is strictly ascending. -/
theorem sorted_noAdjDup_strict (l : List Nat)
    (hs : l.Sorted (fun a b => a ≤ b)) (hd : hasAdjDup l = false) :
    l.Sorted (fun a b => a < b) := by
  induction l with
  | nil => simp
  | cons a rest ih =>
    cases rest with
    | nil => simp
    | cons b rest2 =>
      simp only [hasAdjDup, Bool.or_eq_false_iff, decide_eq_false_iff_not] at hd
      have hs1 := List.sorted_cons.mp hs
      have ht := ih hs1.2 hd.2
      rw [List.sorted_cons]
      refine ⟨?_, ht⟩
      intro y hy
      have hab : a < b := by
        have := hs1.1 b (by simp)
        omega
      rcases hy with _ | hy2
      · exact hab
      · rename_i hy2
        have hby := (List.sorted_cons.mp hs1.2).1 y hy2
        omega

/-- A strictly ascending list has no adjacent duplicates. -/
theorem strict_noAdjDup (l : List Nat) (hs : l.Sorted (fun a b => a < b)) :
    hasAdjDup l = false := by
  induction l with
  | nil => rfl
  | cons a rest ih =>
    cases rest with
    | nil => rfl
    | cons b rest2 =>
      have hs1 := List.sorted_cons.mp hs
      have hab : a < b := hs1.1 b (by simp)
      simp only [hasAdjDup, Bool.or_eq_false_iff, decide_eq_false_iff_not]
      exact ⟨by omega, ih hs1.2⟩

/-- Positions in a strictly ascending list carry the order. -/
theorem ssorted_getElem_lt {S : List Nat} (hs : S.Sorted (fun a b => a < b))
    {i j : Nat} (hi : i < S.length) (hj : j < S.length) (hij : i < j) :
    S[i] < S[j] :=
  (List.pairwise_iff_getElem.mp hs) i j hi hj hij

/-- In a strictly ascending list, the position of v+1 is right after the
position of v whenever both are present. -/
theorem indexOf_succ_adj {S : List Nat} (hs : S.Sorted (fun a b => a < b))
    {v : Nat} (hv : v ∈ S) (hv1 : v + 1 ∈ S) :
    S.indexOf (v + 1) = S.indexOf v + 1 := by
  have hi : S.indexOf v < S.length := List.indexOf_lt_length.mpr hv
  have hj : S.indexOf (v + 1) < S.length := List.indexOf_lt_length.mpr hv1
  have hgi : S[S.indexOf v] = v := List.getElem_indexOf hi
  have hgj : S[S.indexOf (v + 1)] = v + 1 := List.getElem_indexOf hj
  have hij : S.indexOf v < S.indexOf (v + 1) := by
    rcases Nat.lt_trichotomy (S.indexOf v) (S.indexOf (v + 1)) with h | h | h
    · exact h
    · exfalso
      have hgi2 : S[S.indexOf v]? = some v := by
        rw [List.getElem?_eq_getElem hi, hgi]
      rw [h, List.getElem?_eq_getElem hj] at hgi2
      rw [hgj] at hgi2
      simp at hgi2
    · have := ssorted_getElem_lt hs hj hi h
      omega
  by_contra hne
  have hj2 : S.indexOf v + 1 < S.indexOf (v + 1) := by omega
  have hmid : S.indexOf v + 1 < S.length := by omega
  have h1 : S[S.indexOf v] < S[S.indexOf v + 1] :=
    ssorted_getElem_lt hs hi hmid (by omega)
  have h2 : S[S.indexOf v + 1] < S[S.indexOf (v + 1)] :=
    ssorted_getElem_lt hs hmid hj hj2
  omega

/-- Positions of a whole sector range contained in a strictly ascending
list are contiguous. -/
theorem indexOf_range_contig {S : List Nat} (hs : S.Sorted (fun a b => a < b))
    (s c : Nat) (hsub : ∀ v ∈ List.range' s c, v ∈ S) :
    ∀ t, t < c → S.indexOf (s + t) = S.indexOf s + t := by
  intro t
  induction t with
  | zero => simp
  | succ t ih =>
    intro ht
    have h1 := ih (by omega)
    have hmem : s + t ∈ S := hsub _ (by
      rw [List.mem_range'_1]
      omega)
    have hmem1 : s + t + 1 ∈ S := hsub _ (by
      rw [List.mem_range'_1]
      omega)
    have h2 := indexOf_succ_adj hs hmem hmem1
    rw [show s + (t + 1) = s + t + 1 from by omega, h2, h1]
    omega

/-- Mapping every element of a strictly ascending list to its own position
enumerates the positions. -/
theorem map_indexOf_sorted {S : List Nat} (hs : S.Sorted (fun a b => a < b)) :
    S.map (fun v => S.indexOf v) = List.range S.length := by
  have hnd : S.Nodup := hs.nodup
  apply List.ext_getElem
  · simp
  · intro i hi1 hi2
    simp only [List.getElem_map, List.getElem_range]
    exact List.indexOf_getElem hnd i (by simpa using hi1)

/-- A strictly ascending list containing 0 and 1 has them at positions 0
and 1. -/
theorem indexOf_zero_one {S : List Nat} (hs : S.Sorted (fun a b => a < b))
    (h0 : 0 ∈ S) (h1 : 1 ∈ S) : S.indexOf 0 = 0 ∧ S.indexOf 1 = 1 := by
  have hi0 : S.indexOf 0 < S.length := List.indexOf_lt_length.mpr h0
  have hg0 : S[S.indexOf 0] = 0 := List.getElem_indexOf hi0
  have hi1 : S.indexOf 1 < S.length := List.indexOf_lt_length.mpr h1
  have hg1 : S[S.indexOf 1] = 1 := List.getElem_indexOf hi1
  have hz : S.indexOf 0 = 0 := by
    by_contra hc
    have h00 : (0 : Nat) < S.length := by omega
    have := ssorted_getElem_lt hs h00 hi0 (by omega)
    omega
  refine ⟨hz, ?_⟩
  by_contra hc
  have hne : S.indexOf 1 ≠ 0 := by
    intro h
    have hg12 : S[S.indexOf 1]? = some 1 := by
      rw [List.getElem?_eq_getElem hi1, hg1]
    rw [h, List.getElem?_eq_getElem (by omega : 0 < S.length)] at hg12
    have hg02 : S[S.indexOf 0]? = some 0 := by
      rw [List.getElem?_eq_getElem hi0, hg0]
    rw [hz, List.getElem?_eq_getElem (by omega : 0 < S.length)] at hg02
    rw [Option.some_inj.mp hg02] at hg12
    simp at hg12
  have h11 : (1 : Nat) < S.length := by omega
  have ha := ssorted_getElem_lt hs (by omega : (0:Nat) < S.length) h11 (by omega)
  have hb := ssorted_getElem_lt hs h11 hi1 (by omega)
  have hg00 : S[(0:Nat)]? = some 0 := by
    have hx : S[S.indexOf 0]? = some 0 := by
      rw [List.getElem?_eq_getElem hi0, hg0]
    rwa [hz] at hx
  rw [List.getElem?_eq_getElem (by omega : (0:Nat) < S.length)] at hg00
  rw [Option.some_inj.mp hg00] at ha
  omega

/-- Relocation-map lookup after assigning the same key. -/
theorem relGet_relSet_self (r : List (Nat × Int)) (k : Nat) (v : Int) :
    relGet (relSet r k v) k = some v := by
  induction r with
  | nil => simp [relSet, relGet]
  | cons f fs ih =>
    obtain ⟨k0, v0⟩ := f
    by_cases hk : k0 = k
    · subst hk
      simp [relSet, relGet]
    · simp [relSet, relGet, hk, ih]

/-- Relocation-map lookup after assigning a different key. -/
theorem relGet_relSet_ne (r : List (Nat × Int)) {k k2 : Nat} (v : Int)
    (h : k2 ≠ k) : relGet (relSet r k v) k2 = relGet r k2 := by
  induction r with
  | nil => simp [relSet, relGet, Ne.symm h]
  | cons f fs ih =>
    obtain ⟨k0, v0⟩ := f
    by_cases hk : k0 = k
    · subst hk
      simp [relSet, relGet, Ne.symm h]
    · simp [relSet, relGet, hk, ih]

/-- Characterization of the relocation map and file threading of the copy
loop on success: every listed pair assigns its index to its key when the
key is present in the map (and distinct keys are assigned exactly once),
and keys outside the listed pairs keep their initial binding. -/
theorem copyLoop_relGet :
    ∀ (pairs : List (Nat × Nat)) (r0 : List (Nat × Int)) (f : Bytes)
      (r : List (Nat × Int)) (f2 : Bytes),
      copyLoop pairs r0 f = .ok (r, f2) →
      (pairs.map Prod.snd).Nodup →
      (∀ i k, (i, k) ∈ pairs →
         relGet r k = if (relGet r0 k).isSome then some (Int.ofNat i) else relGet r0 k) ∧
      (∀ k, (∀ i, (i, k) ∉ pairs) → relGet r k = relGet r0 k) := by
  intro pairs
  induction pairs with
  | nil =>
    intro r0 f r f2 h hnd
    simp only [copyLoop] at h
    simp only [GoResult.ok.injEq, Prod.mk.injEq] at h
    obtain ⟨h1, _⟩ := h
    subst h1
    constructor
    · intro i k hik
      simp at hik
    · intro k _
      rfl
  | cons p rest ih =>
    intro r0 f r f2 h hnd
    obtain ⟨i0, k0⟩ := p
    simp only [copyLoop] at h
    simp only [List.map_cons, List.nodup_cons] at hnd
    obtain ⟨hk0, hndr⟩ := hnd
    have hget1 :
        ∀ k, relGet (if (relGet r0 k0).isSome then relSet r0 k0 (Int.ofNat i0) else r0) k =
          (if k = k0 then (if (relGet r0 k0).isSome then some (Int.ofNat i0) else relGet r0 k0)
           else relGet r0 k) := by
      intro k
      by_cases hkk : k = k0
      · subst hkk
        rw [if_pos rfl]
        by_cases hsome : (relGet r0 k).isSome
        · rw [if_pos hsome, if_pos hsome, relGet_relSet_self]
        · rw [if_neg hsome, if_neg hsome]
      · rw [if_neg hkk]
        by_cases hsome : (relGet r0 k0).isSome
        · rw [if_pos hsome]
          exact relGet_relSet_ne r0 (Int.ofNat i0) hkk
        · rw [if_neg hsome]
    have hcont :
        ∃ f1, copyLoop rest
          (if (relGet r0 k0).isSome then relSet r0 k0 (Int.ofNat i0) else r0) f1 =
            .ok (r, f2) := by
      split at h
      · exact absurd h (by simp)
      · split at h
        · exact ⟨f, h⟩
        · split at h
          · exact absurd h (by simp)
          · exact ⟨_, h⟩
    obtain ⟨f1, hc⟩ := hcont
    have hih := ih _ f1 r f2 hc hndr
    constructor
    · intro i k hik
      rcases List.mem_cons.mp hik with he | hr2
      · rw [Prod.mk.injEq] at he
        obtain ⟨hei, hek⟩ := he
        subst hei
        subst hek
        have hnotin : ∀ i2, (i2, k) ∉ rest := by
          intro i2 hi2
          exact hk0 (List.mem_map.mpr ⟨(i2, k), hi2, rfl⟩)
        rw [hih.2 k hnotin, hget1 k, if_pos rfl]
      · have hkne : k ≠ k0 := by
          intro hkeq
          subst hkeq
          exact hk0 (List.mem_map.mpr ⟨(i, k), hr2, rfl⟩)
        have := hih.1 i k hr2
        rw [this, hget1 k, if_neg hkne]
    · intro k hnk
      have hkne : k ≠ k0 := by
        intro hkeq
        subst hkeq
        exact hnk i0 (by simp)
      have := hih.2 k (fun i hi => hnk i (List.mem_cons_of_mem _ hi))
      rw [this, hget1 k, if_neg hkne]

/-- The copy loop succeeds without touching the file when every pair is
already in place. -/
theorem copyLoop_diag :
    ∀ (pairs : List (Nat × Nat)) (r0 : List (Nat × Int)) (f : Bytes),
      (∀ p ∈ pairs, p.1 = p.2) →
      ∃ r, copyLoop pairs r0 f = .ok (r, f) := by
  intro pairs
  induction pairs with
  | nil =>
    intro r0 f _
    exact ⟨r0, rfl⟩
  | cons p rest ih =>
    intro r0 f hdiag
    obtain ⟨i0, k0⟩ := p
    have heq : i0 = k0 := hdiag (i0, k0) (by simp)
    subst heq
    obtain ⟨r, hr⟩ := ih
      (if (relGet r0 i0).isSome then relSet r0 i0 (Int.ofNat i0) else r0) f
      (fun p hp => hdiag p (List.mem_cons_of_mem _ hp))
    refine ⟨r, ?_⟩
    simp only [copyLoop, lt_irrefl, if_neg (lt_irrefl i0), if_pos rfl]
    exact hr

/-- Every enumerated pair of an initial segment of the naturals is
diagonal. -/
theorem enum_range_diag (n : Nat) : ∀ p ∈ (List.range n).enum, p.1 = p.2 := by
  intro p hp
  have := List.mem_enum_iff_getElem?.mp hp
  have hlt : p.1 < n := by
    by_contra hc
    rw [List.getElem?_eq_none (by simpa using hc)] at this
    exact Option.noConfusion this
  rw [List.getElem?_eq_getElem (by simpa using hlt)] at this
  simp at this
  omega

/-- Lookup in the initial relocation map built by a fold of placeholder
assignments. -/
theorem relGet_initReloc_aux :
    ∀ (locs : List Nat) (r : List (Nat × Int)) (k : Nat),
      relGet (locs.foldl
        (fun r loc => if loc = 0 then r else relSet r (locStart loc) (-1)) r) k =
      if locs.any (fun loc => loc != 0 && locStart loc == k) then some (-1)
      else relGet r k := by
  intro locs
  induction locs with
  | nil =>
    intro r k
    simp
  | cons loc rest ih =>
    intro r k
    simp only [List.foldl_cons, List.any_cons]
    rw [ih]
    by_cases h0 : loc = 0
    · simp [h0]
    · by_cases hk : locStart loc = k
      · subst hk
        by_cases hrest : rest.any (fun loc2 => loc2 != 0 && locStart loc2 == locStart loc)
        · simp [h0, hrest]
        · simp [h0, hrest, relGet_relSet_self]
      · by_cases hrest : rest.any (fun loc2 => loc2 != 0 && locStart loc2 == k)
        · simp [h0, hk, hrest]
        · simp [h0, hk, hrest, relGet_relSet_ne _ _ (fun h => hk h.symm)]

/-- Lookup in the initial relocation map. -/
theorem relGet_initReloc (locs : List Nat) (k : Nat) :
    relGet (initReloc locs) k =
      if locs.any (fun loc => loc != 0 && locStart loc == k) then some (-1)
      else none := by
  unfold initReloc
  rw [relGet_initReloc_aux locs [] k]
  rfl

/-- The table rewrite succeeds and maps entries pointwise whenever every
populated entry has a binding in the relocation map. -/
theorem remapLocs_map :
    ∀ (locs : List Nat) (reloc : List (Nat × Int)) (F : Nat → Nat),
      (∀ loc ∈ locs, loc ≠ 0 → ∃ ns, relGet reloc (locStart loc) = some ns ∧
          F loc = uint32OfInt (ns * 256) ||| locCount loc) →
      (∀ loc ∈ locs, loc = 0 → F loc = 0) →
      remapLocs reloc locs = .ok (locs.map F) := by
  intro locs
  induction locs with
  | nil =>
    intro reloc F _ _
    rfl
  | cons loc rest ih =>
    intro reloc F hne hz
    have hrest := ih reloc F
      (fun l hl => hne l (List.mem_cons_of_mem _ hl))
      (fun l hl => hz l (List.mem_cons_of_mem _ hl))
    by_cases h0 : loc = 0
    · subst h0
      simp [remapLocs, hrest, hz 0 (by simp) rfl]
    · obtain ⟨ns, hns, hF⟩ := hne loc (by simp) h0
      simp only [remapLocs, if_neg h0, hns, hrest, List.map_cons, hF]

/-- Length of a truncated file is exactly the requested size. -/
theorem truncateFile_length (f : Bytes) (n : Nat) :
    (truncateFile f n).length = n := by
  simp [truncateFile]
  omega

/-- Truncating a file to its own length is the identity. -/
theorem truncateFile_self (f : Bytes) : truncateFile f f.length = f := by
  simp [truncateFile]

/-- Success shape of compactRegion: the intermediate values of a
successful compaction. -/
theorem compactRegion_inv (f g : Bytes) (h : compactRegion f = .ok g) :
    (readBytes f 0 4096).length = 4096 ∧
    ∃ reloc f1 locs2,
      hasAdjDup (sortNats (occSectors (parseLocs (readBytes f 0 4096)))) = false ∧
      copyLoop (sortNats (occSectors (parseLocs (readBytes f 0 4096)))).enum
        (initReloc (parseLocs (readBytes f 0 4096))) f = .ok (reloc, f1) ∧
      remapLocs reloc (parseLocs (readBytes f 0 4096)) = .ok locs2 ∧
      g = truncateFile (writeBytes f1 0 (serLocs locs2))
        (((sortNats (occSectors (parseLocs (readBytes f 0 4096)))).length - 1) * 4096) := by
  unfold compactRegion at h
  by_cases hlen : (readBytes f 0 4096).length = 4096
  · refine ⟨hlen, ?_⟩
    rw [if_neg (by omega)] at h
    by_cases hdup :
        hasAdjDup (sortNats (occSectors (parseLocs (readBytes f 0 4096)))) = false
    · rw [if_neg (by simp [hdup])] at h
      cases hcl : copyLoop (sortNats (occSectors (parseLocs (readBytes f 0 4096)))).enum
          (initReloc (parseLocs (readBytes f 0 4096))) f with
      | err e => rw [hcl] at h; exact absurd h (by simp)
      | crash => rw [hcl] at h; exact absurd h (by simp)
      | ok rf =>
        obtain ⟨reloc1, f1⟩ := rf
        rw [hcl] at h
        cases hrm : remapLocs (reloc1, f1).1 (parseLocs (readBytes f 0 4096)) with
        | err e =>
          simp only [hrm] at h
          exact absurd h (by simp)
        | crash =>
          simp only [hrm] at h
          exact absurd h (by simp)
        | ok locs2 =>
          simp only [hrm] at h
          simp only [GoResult.ok.injEq] at h
          exact ⟨reloc1, f1, locs2, hdup, rfl, hrm, h.symm⟩
    · rw [if_pos (by simpa using hdup)] at h
      exact absurd h (by simp)
  · rw [if_pos hlen] at h
    exact absurd h (by simp)

/-- Writing at the start of a file overlays its prefix. -/
theorem writeBytes_zero (f : Bytes) (bs : Bytes) :
    writeBytes f 0 bs = bs ++ f.drop bs.length := by
  simp [writeBytes]

/-- The uint32 conversion is the identity on in-range naturals. -/
theorem uint32OfInt_ofNat (x : Nat) (h : x < 4294967296) :
    uint32OfInt (Int.ofNat x) = x := by
  unfold uint32OfInt
  have hcast : Int.ofNat x = (x : Int) := rfl
  rw [hcast]
  have h1 : (x : Int) % 4294967296 = (x : Int) :=
    Int.emod_eq_of_lt (Int.natCast_nonneg x) (by omega)
  rw [h1]
  simp

/-- The uint32 conversion of the shifted placeholder. -/
theorem uint32OfInt_neg256 : uint32OfInt ((-1) * 256) = 4294967040 := by
  rfl

/-- Membership in the occupied-sector list. -/
theorem mem_occSectors (locs : List Nat) (v : Nat) :
    v ∈ occSectors locs ↔
      (v = 0 ∨ v = 1 ∨
        ∃ loc ∈ locs, loc ≠ 0 ∧ v ∈ List.range' (locStart loc) (locCount loc)) := by
  simp only [occSectors, List.cons_append, List.nil_append, List.mem_cons,
    List.mem_flatMap]
  constructor
  · rintro (h | h | ⟨loc, hloc, hv⟩)
    · exact Or.inl h
    · exact Or.inr (Or.inl h)
    · by_cases h0 : loc = 0
      · rw [if_pos h0] at hv
        simp at hv
      · rw [if_neg h0] at hv
        exact Or.inr (Or.inr ⟨loc, hloc, h0, hv⟩)
  · rintro (h | h | ⟨loc, hloc, h0, hv⟩)
    · exact Or.inl h
    · exact Or.inr (Or.inl h)
    · exact Or.inr (Or.inr ⟨loc, hloc, by rw [if_neg h0]; exact hv⟩)

/-- The occupied-sector list of a table has at most 2 + 255 sectors per
entry. -/
theorem occ_length_le (locs : List Nat) :
    (occSectors locs).length ≤ 2 + locs.length * 255 := by
  simp only [occSectors, List.length_append]
  have h : ∀ (ls : List Nat),
      (ls.flatMap (fun loc =>
        if loc = 0 then [] else List.range' (locStart loc) (locCount loc))).length ≤
        ls.length * 255 := by
    intro ls
    induction ls with
    | nil => simp
    | cons loc rest ih =>
      simp only [List.flatMap_cons, List.length_append, List.length_cons]
      have hcnt : (if loc = 0 then ([] : List Nat)
          else List.range' (locStart loc) (locCount loc)).length ≤ 255 := by
        split
        · simp
        · rw [List.length_range']
          rw [locCount_eq]
          omega
      calc _ ≤ 255 + rest.length * 255 := by omega
        _ = (rest.length + 1) * 255 := by ring
  have := h locs
  simp only [List.length_cons, List.length_nil]
  omega

/-- Values parsed from genuine bytes are 32-bit values. -/
theorem parseLocs_lt :
    ∀ (bs : Bytes), (∀ b ∈ bs, b < 256) → ∀ v ∈ parseLocs bs, v < 4294967296 := by
  intro bs
  generalize hn : bs.length = n
  induction n using Nat.strong_induction_on generalizing bs with
  | _ n ih =>
    match bs with
    | [] => intro _ v hv; simp [parseLocs] at hv
    | [a] => intro _ v hv; simp [parseLocs] at hv
    | [a, b] => intro _ v hv; simp [parseLocs] at hv
    | [a, b, c] => intro _ v hv; simp [parseLocs] at hv
    | a :: b :: c :: d :: rest =>
      intro hb v hv
      simp only [parseLocs, List.mem_cons] at hv
      rcases hv with hv | hv
      · subst hv
        have ha := hb a (by simp)
        have hbb := hb b (by simp)
        have hc := hb c (by simp)
        have hd := hb d (by simp)
        simp only [beU32]
        omega
      · refine ih rest.length (by simp at hn; omega) rest rfl
          (fun x hx => hb x (by simp [hx])) v hv

/-- The positions of a range contained in a strictly ascending list form
the corresponding range of positions. -/
theorem range'_map_indexOf {S : List Nat} (hs : S.Sorted (fun a b => a < b))
    (k c : Nat) (hsub : ∀ v ∈ List.range' k c, v ∈ S) :
    List.range' (S.indexOf k) c = List.map (fun v => S.indexOf v) (List.range' k c) := by
  apply List.ext_getElem
  · simp
  · intro i hi1 hi2
    rw [List.getElem_range']
    rw [List.getElem_map]
    rw [List.getElem_range']
    have hic : i < c := by simpa using hi1
    have h2 := indexOf_range_contig hs k c hsub i hic
    simp only [one_mul]
    omega

/-- Table entry the compactor writes for a given old entry, with S the
sorted occupied-sector list: empty entries stay empty, entries whose start
sector is occupied move to its sorted position, and entries whose start
sector is not occupied (count-zero entries pointing at a dead sector) get
the wrapped uint32 of the -1 placeholder shifted left by 8. -/
def newLoc (S : List Nat) (loc : Nat) : Nat :=
  if loc = 0 then 0
  else if locStart loc ∈ S then S.indexOf (locStart loc) * 256 ||| locCount loc
  else 4294967040 ||| locCount loc

/-- A strictly ascending list containing 0 has it at position 0. -/
theorem indexOf_zero {S : List Nat} (hs : S.Sorted (fun a b => a < b))
    (h0 : 0 ∈ S) : S.indexOf 0 = 0 := by
  have hi0 : S.indexOf 0 < S.length := List.indexOf_lt_length.mpr h0
  have hg0 : S[S.indexOf 0] = 0 := List.getElem_indexOf hi0
  by_contra hc
  have h00 : (0 : Nat) < S.length := by omega
  have := ssorted_getElem_lt hs h00 hi0 (by omega)
  omega

/-- Field decomposition of the rewritten table entries. -/
theorem newLoc_fields {S : List Nat} (hstrict : S.Sorted (fun a b => a < b))
    (h0S : 0 ∈ S) (hNb : S.length ≤ 261122) (loc : Nat)
    (hlt : loc < 4294967296) (h0 : loc ≠ 0) :
    (newLoc S loc ≠ 0 ∧ newLoc S loc < 4294967296) ∧
    (locStart loc ∈ S →
       locStart (newLoc S loc) = S.indexOf (locStart loc) ∧
       locCount (newLoc S loc) = locCount loc) ∧
    (locStart loc ∉ S →
       locStart (newLoc S loc) = 16777215 ∧
       locCount (newLoc S loc) = locCount loc) := by
  have hcnt : locCount loc < 256 := by
    rw [locCount_eq]
    omega
  by_cases hmem : locStart loc ∈ S
  · have hidx : S.indexOf (locStart loc) < S.length := List.indexOf_lt_length.mpr hmem
    have hidx24 : S.indexOf (locStart loc) < 16777216 := by omega
    obtain ⟨hf1, hf2, hf3⟩ :=
      locStart_locCount_mk (S.indexOf (locStart loc)) (locCount loc) hidx24 hcnt
    have hne : newLoc S loc ≠ 0 := by
      unfold newLoc
      rw [if_neg h0, if_pos hmem]
      intro hz
      rw [or_eq_add256 _ _ hcnt] at hz
      have hidx0 : S.indexOf (locStart loc) = 0 := by omega
      have hcnt0 : locCount loc = 0 := by omega
      have hgs : S[S.indexOf (locStart loc)] = locStart loc :=
        List.getElem_indexOf hidx
      have hlen0 : S.indexOf 0 < S.length := List.indexOf_lt_length.mpr h0S
      have hgz : S[S.indexOf 0] = 0 := List.getElem_indexOf hlen0
      have hiz := indexOf_zero hstrict h0S
      have hstart0 : locStart loc = 0 := by
        have h1 : S[(0 : Nat)]? = some (locStart loc) := by
          have hx : S[S.indexOf (locStart loc)]? = some (locStart loc) := by
            rw [List.getElem?_eq_getElem hidx, hgs]
          rw [hidx0] at hx
          exact hx
        have h2 : S[(0 : Nat)]? = some 0 := by
          have hx : S[S.indexOf 0]? = some 0 := by
            rw [List.getElem?_eq_getElem hlen0, hgz]
          rw [hiz] at hx
          exact hx
        rw [h1] at h2
        have := Option.some_inj.mp h2
        omega
      have := loc_fields_split loc hlt
      omega
    refine ⟨⟨hne, ?_⟩, fun _ => ⟨?_, ?_⟩, fun hm => absurd hmem hm⟩
    · unfold newLoc
      rw [if_neg h0, if_pos hmem]
      exact hf3
    · unfold newLoc
      rw [if_neg h0, if_pos hmem]
      exact hf1
    · unfold newLoc
      rw [if_neg h0, if_pos hmem]
      exact hf2
  · have hkey : (4294967040 : Nat) = 16777215 * 256 := by norm_num
    have hval : (4294967040 : Nat) ||| locCount loc = 4294967040 + locCount loc := by
      rw [hkey, or_eq_add256 _ _ hcnt]
    refine ⟨⟨?_, ?_⟩, fun hm => absurd hm hmem, fun _ => ⟨?_, ?_⟩⟩
    · unfold newLoc
      rw [if_neg h0, if_neg hmem, hval]
      omega
    · unfold newLoc
      rw [if_neg h0, if_neg hmem, hval]
      omega
    · unfold newLoc
      rw [if_neg h0, if_neg hmem, hval, locStart_eq]
      omega
    · unfold newLoc
      rw [if_neg h0, if_neg hmem, hval, locCount_eq]
      omega

/-- Unsigned conversion of a shifted in-range index. -/
theorem uint32OfInt_mul256 (x : Nat) (h : x * 256 < 4294967296) :
    uint32OfInt (Int.ofNat x * 256) = x * 256 := by
  have hx : Int.ofNat x * 256 = Int.ofNat (x * 256) := by
    simp [Int.ofNat_mul]
  rw [hx, uint32OfInt_ofNat _ h]

/-- Pointwise-equal functions give equal concatenated maps. -/
theorem flatMap_congr_mem {alpha beta : Type} (l : List alpha)
    (fn gn : alpha → List beta) (h : ∀ a ∈ l, fn a = gn a) :
    l.flatMap fn = l.flatMap gn := by
  induction l with
  | nil => rfl
  | cons a rest ih =>
    simp only [List.flatMap_cons]
    rw [h a (by simp), ih (fun b hb => h b (List.mem_cons_of_mem _ hb))]

/-- The first table worth of bytes survives a truncation that keeps at
least one sector. -/
theorem truncateFile_take_prefix (A B : Bytes) (n : Nat) (hA : A.length = 4096)
    (hn : 4096 ≤ n) : (truncateFile (A ++ B) n).take 4096 = A := by
  unfold truncateFile
  rw [List.take_append_eq_append_take]
  have hlen : (List.take n (A ++ B)).length = min n (A ++ B).length := by simp
  have h3 : 4096 ≤ (List.take n (A ++ B)).length := by
    rw [hlen]
    simp only [List.length_append, hA]
    omega
  have h4 : 4096 - (List.take n (A ++ B)).length = 0 := by omega
  rw [h4, List.take_zero, List.append_nil, List.take_take]
  have hmin : min 4096 n = 4096 := by omega
  rw [hmin, List.take_append_eq_append_take, List.take_of_length_le hA.le, hA]
  simp

/-- A pair of the enumeration names an element of the list. -/
theorem snd_mem_of_mem_enum {alpha : Type} {l : List alpha} {p : Nat × alpha}
    (h : p ∈ l.enum) : p.2 ∈ l := by
  obtain ⟨i, a⟩ := p
  exact List.getElem?_mem (List.mem_enum_iff_getElem?.mp h)

/-- Every element of a list appears in the enumeration at its index. -/
theorem indexOf_mem_enum {l : List Nat} {k : Nat} (h : k ∈ l) :
    (l.indexOf k, k) ∈ l.enum := by
  have hi : l.indexOf k < l.length := List.indexOf_lt_length.mpr h
  rw [List.mem_enum_iff_getElem?]
  rw [List.getElem?_eq_getElem hi, List.getElem_indexOf hi]

/-- After a successful copy loop over the sorted occupied-sector list, the
table rewrite succeeds and produces exactly the entries described by
newLoc. -/
theorem copyLoop_reloc_newLoc (locs S : List Nat) (f f1 : Bytes)
    (reloc : List (Nat × Int))
    (hnd : S.Nodup)
    (hcl : copyLoop S.enum (initReloc locs) f = .ok (reloc, f1))
    (hNb : S.length ≤ 261122) :
    remapLocs reloc locs = .ok (locs.map (newLoc S)) := by
  have hnd2 : (S.enum.map Prod.snd).Nodup := by
    rw [List.enum_map_snd]
    exact hnd
  have hcr := copyLoop_relGet S.enum (initReloc locs) f reloc f1 hcl hnd2
  apply remapLocs_map
  · intro loc hloc h0
    have hinit : relGet (initReloc locs) (locStart loc) = some (-1) := by
      rw [relGet_initReloc, if_pos]
      exact List.any_eq_true.mpr ⟨loc, hloc, by simp [h0]⟩
    by_cases hmem : locStart loc ∈ S
    · have hidx : S.indexOf (locStart loc) < S.length := List.indexOf_lt_length.mpr hmem
      have h1 := hcr.1 _ _ (indexOf_mem_enum hmem)
      rw [hinit] at h1
      simp only [Option.isSome_some, if_pos] at h1
      refine ⟨Int.ofNat (S.indexOf (locStart loc)), h1, ?_⟩
      rw [uint32OfInt_mul256 _ (by omega)]
      unfold newLoc
      rw [if_neg h0, if_pos hmem]
    · have h2 := hcr.2 (locStart loc) (fun i hi => hmem (snd_mem_of_mem_enum hi))
      rw [hinit] at h2
      refine ⟨-1, h2, ?_⟩
      rw [uint32OfInt_neg256]
      unfold newLoc
      rw [if_neg h0, if_neg hmem]
  · intro loc _ h0
    rw [h0]
    rfl

/-- The occupied sectors of the rewritten table are the positions, in the
sorted occupied-sector list, of the original occupied sectors. -/
theorem occSectors_map_newLoc (locs S : List Nat)
    (hstrict : S.Sorted (fun a b => a < b))
    (h0S : 0 ∈ S) (h1S : 1 ∈ S) (hNb : S.length ≤ 261122)
    (hwf32 : ∀ loc ∈ locs, loc < 4294967296)
    (hsub : ∀ loc ∈ locs, loc ≠ 0 →
       ∀ v ∈ List.range' (locStart loc) (locCount loc), v ∈ S) :
    occSectors (locs.map (newLoc S)) =
      (occSectors locs).map (fun v => S.indexOf v) := by
  obtain ⟨hi0, hi1⟩ := indexOf_zero_one hstrict h0S h1S
  have hpt : ∀ loc ∈ locs,
      (if newLoc S loc = 0 then ([] : List Nat)
       else List.range' (locStart (newLoc S loc)) (locCount (newLoc S loc))) =
      ((if loc = 0 then ([] : List Nat)
        else List.range' (locStart loc) (locCount loc)).map
          (fun v => S.indexOf v)) := by
    intro loc hloc
    by_cases h0 : loc = 0
    · rw [if_pos h0, if_pos (by rw [h0]; rfl)]
      rfl
    · have hfields := newLoc_fields hstrict h0S hNb loc (hwf32 loc hloc) h0
      rw [if_neg h0, if_neg hfields.1.1]
      by_cases hmem : locStart loc ∈ S
      · obtain ⟨hf1, hf2⟩ := hfields.2.1 hmem
        rw [hf1, hf2]
        exact range'_map_indexOf hstrict (locStart loc) (locCount loc)
          (hsub loc hloc h0)
      · obtain ⟨hf1, hf2⟩ := hfields.2.2 hmem
        have hcnt0 : locCount loc = 0 := by
          by_contra hc
          exact hmem (hsub loc hloc h0 (locStart loc)
            (by rw [List.mem_range'_1]; omega))
        rw [hf1, hf2, hcnt0]
        rfl
  simp only [occSectors, List.cons_append, List.nil_append, List.map_cons, hi0, hi1]
  congr 1
  congr 1
  have hflat : ∀ (ls : List Nat), (∀ loc ∈ ls, loc ∈ locs) →
      (ls.map (newLoc S)).flatMap
          (fun loc => if loc = 0 then [] else
            List.range' (locStart loc) (locCount loc)) =
        (ls.flatMap (fun loc => if loc = 0 then [] else
            List.range' (locStart loc) (locCount loc))).map (fun v => S.indexOf v) := by
    intro ls
    induction ls with
    | nil => intro _; rfl
    | cons a rest ih =>
      intro hmem2
      simp only [List.map_cons, List.flatMap_cons, List.map_append]
      rw [ih (fun l hl => hmem2 l (List.mem_cons_of_mem _ hl))]
      rw [hpt a (hmem2 a (by simp))]
  exact hflat locs (fun _ h => h)

/-- A copy loop enumerated over an initial range, followed by the table
rewrite, leaves a table fixed when its populated entries either start
below the range bound or carry the dead 0xffffff start field. -/
theorem remapLocs_id_run (locs2 : List Nat) (N : Nat) (g g2 : Bytes)
    (r2 : List (Nat × Int))
    (hcl2 : copyLoop (List.range N).enum (initReloc locs2) g = .ok (r2, g2))
    (hN : N ≤ 261122)
    (h32 : ∀ loc2 ∈ locs2, loc2 < 4294967296)
    (hstart : ∀ loc2 ∈ locs2, loc2 ≠ 0 →
        locStart loc2 < N ∨ locStart loc2 = 16777215) :
    remapLocs r2 locs2 = .ok locs2 := by
  have hnd2 : ((List.range N).enum.map Prod.snd).Nodup := by
    rw [List.enum_map_snd]
    exact List.nodup_range N
  have hcr := copyLoop_relGet _ _ _ _ _ hcl2 hnd2
  have hmain := remapLocs_map locs2 r2 (fun x => x) ?_ ?_
  · simpa using hmain
  · intro loc2 hloc2 h0
    have hcnt : locCount loc2 < 256 := by
      rw [locCount_eq]
      omega
    have hsplit := loc_fields_split loc2 (h32 loc2 hloc2)
    have hinit : relGet (initReloc locs2) (locStart loc2) = some (-1) := by
      rw [relGet_initReloc, if_pos]
      exact List.any_eq_true.mpr ⟨loc2, hloc2, by simp [h0]⟩
    rcases hstart loc2 hloc2 h0 with hlt | h16
    · have henum : (locStart loc2, locStart loc2) ∈ (List.range N).enum := by
        rw [List.mem_enum_iff_getElem?]
        rw [List.getElem?_eq_getElem (by simpa using hlt)]
        simp
      have h1 := hcr.1 _ _ henum
      rw [hinit] at h1
      simp only [Option.isSome_some, if_pos] at h1
      refine ⟨Int.ofNat (locStart loc2), h1, ?_⟩
      show loc2 = uint32OfInt (Int.ofNat (locStart loc2) * 256) ||| locCount loc2
      rw [uint32OfInt_mul256 _ (by omega), or_eq_add256 _ _ hcnt]
      omega
    · have hnot : ∀ i, (i, locStart loc2) ∉ (List.range N).enum := by
        intro i hi
        have := snd_mem_of_mem_enum hi
        rw [List.mem_range] at this
        omega
      have h2 := hcr.2 _ hnot
      rw [hinit] at h2
      refine ⟨-1, h2, ?_⟩
      show loc2 = uint32OfInt (-1 * 256) ||| locCount loc2
      rw [uint32OfInt_neg256]
      rw [show (4294967040 : Nat) = 16777215 * 256 from by norm_num]
      rw [or_eq_add256 _ _ hcnt]
      omega
  · intro loc2 _ h0
    exact h0

/-- C3: compactRegion is idempotent: for every region file (of genuine
bytes) on which one run of compactRegion succeeds, running compactRegion
on the output succeeds again and returns the output unchanged. -/
theorem compact_idempotent (f g : Bytes) (hwf : ∀ b ∈ f, b < 256)
    (h : compactRegion f = .ok g) : compactRegion g = .ok g := by
  obtain ⟨hlen, reloc, f1, locs2, hdup, hcl, hrm, hg⟩ := compactRegion_inv f g h
  set locs := parseLocs (readBytes f 0 4096) with hlocs
  set S := sortNats (occSectors locs) with hSdef
  have hstrict : S.Sorted (fun a b => a < b) :=
    sorted_noAdjDup_strict _ (sortNats_sorted _) hdup
  have hperm : List.Perm S (occSectors locs) := sortNats_perm _
  have h0S : 0 ∈ S := hperm.mem_iff.mpr (by simp [occSectors])
  have h1S : 1 ∈ S := hperm.mem_iff.mpr (by simp [occSectors])
  have hlen2 : 2 ≤ S.length := by
    have hi1 : S.indexOf 1 < S.length := List.indexOf_lt_length.mpr h1S
    have := (indexOf_zero_one hstrict h0S h1S).2
    omega
  have hlocs_len : locs.length = 1024 := by
    rw [hlocs, parseLocs_length, hlen]
  have hNb : S.length ≤ 261122 := by
    have h1 := occ_length_le locs
    have h2 := hperm.length_eq
    omega
  have hwf32 : ∀ loc ∈ locs, loc < 4294967296 := by
    refine parseLocs_lt _ (fun b hb => hwf b ?_)
    simp only [readBytes, List.drop_zero] at hb
    exact List.take_subset _ _ hb
  have hsub : ∀ loc ∈ locs, loc ≠ 0 →
      ∀ v ∈ List.range' (locStart loc) (locCount loc), v ∈ S := by
    intro loc hloc h0 v hv
    exact hperm.mem_iff.mpr ((mem_occSectors locs v).mpr
      (Or.inr (Or.inr ⟨loc, hloc, h0, hv⟩)))
  have hlocs2 : locs2 = locs.map (newLoc S) := by
    have := copyLoop_reloc_newLoc locs S f f1 reloc hstrict.nodup hcl hNb
    rw [hrm] at this
    exact (GoResult.ok.injEq _ _).mp this
  have hlocs2_32 : ∀ v ∈ locs2, v < 4294967296 := by
    rw [hlocs2]
    intro v hv
    obtain ⟨loc, hloc, hveq⟩ := List.mem_map.mp hv
    by_cases h0 : loc = 0
    · rw [← hveq, h0]
      norm_num [newLoc]
    · rw [← hveq]
      exact (newLoc_fields hstrict h0S hNb loc (hwf32 loc hloc) h0).1.2
  have hA : (serLocs locs2).length = 4096 := by
    rw [serLocs_length, hlocs2, List.length_map, hlocs_len]
  have hn4096 : 4096 ≤ (S.length - 1) * 4096 := by
    have : 1 * 4096 ≤ (S.length - 1) * 4096 :=
      Nat.mul_le_mul_right _ (by omega)
    omega
  have hgdef : g = truncateFile (serLocs locs2 ++ f1.drop 4096)
      ((S.length - 1) * 4096) := by
    rw [hg, writeBytes_zero, hA]
  have hgtake : g.take 4096 = serLocs locs2 := by
    rw [hgdef]
    exact truncateFile_take_prefix _ _ _ hA hn4096
  have hglen : g.length = (S.length - 1) * 4096 := by
    rw [hgdef, truncateFile_length]
  have htable2 : readBytes g 0 4096 = serLocs locs2 := by
    simp only [readBytes, List.drop_zero]
    exact hgtake
  have htable2len : (readBytes g 0 4096).length = 4096 := by
    rw [htable2]
    exact hA
  have hlocsg : parseLocs (readBytes g 0 4096) = locs2 := by
    rw [htable2, parseLocs_serLocs _ hlocs2_32]
  have hocc2 : occSectors locs2 = (occSectors locs).map (fun v => S.indexOf v) := by
    rw [hlocs2]
    exact occSectors_map_newLoc locs S hstrict h0S h1S hNb hwf32 hsub
  have hrange : S.map (fun v => S.indexOf v) = List.range S.length :=
    map_indexOf_sorted hstrict
  have hp1 : List.Perm (sortNats (occSectors locs2)) (List.range S.length) := by
    have hx := (hperm.map (fun v => S.indexOf v)).symm
    rw [hrange] at hx
    rw [hocc2]
    exact (sortNats_perm _).trans hx
  have hS2 : sortNats (occSectors locs2) = List.range S.length := by
    refine List.eq_of_perm_of_sorted hp1 (sortNats_sorted _) ?_
    exact (List.pairwise_lt_range S.length).imp (fun h => Nat.le_of_lt h)
  have hdup2 : hasAdjDup (sortNats (occSectors locs2)) = false := by
    rw [hS2]
    exact strict_noAdjDup _ (List.pairwise_lt_range S.length)
  obtain ⟨r2, hcl2⟩ := copyLoop_diag (sortNats (occSectors locs2)).enum
    (initReloc locs2) g (by rw [hS2]; exact enum_range_diag _)
  have hcl2R := hcl2
  rw [hS2] at hcl2R
  have hstart2 : ∀ loc2 ∈ locs2, loc2 ≠ 0 →
      locStart loc2 < S.length ∨ locStart loc2 = 16777215 := by
    intro loc2 hloc2 h02
    rw [hlocs2] at hloc2
    obtain ⟨loc, hloc, hveq⟩ := List.mem_map.mp hloc2
    have h0 : loc ≠ 0 := by
      intro hz
      rw [hz] at hveq
      exact h02 (by rw [← hveq]; rfl)
    have hfields := newLoc_fields hstrict h0S hNb loc (hwf32 loc hloc) h0
    by_cases hmem : locStart loc ∈ S
    · left
      rw [← hveq, (hfields.2.1 hmem).1]
      exact List.indexOf_lt_length.mpr hmem
    · right
      rw [← hveq]
      exact (hfields.2.2 hmem).1
  have hrm2 : remapLocs r2 locs2 = .ok locs2 :=
    remapLocs_id_run locs2 S.length g g r2 hcl2R hNb hlocs2_32 hstart2
  simp only [compactRegion]
  rw [if_neg (by rw [htable2len]; omega), hlocsg]
  rw [if_neg (by rw [hdup2]; simp)]
  rw [hcl2]
  simp only [hrm2]
  rw [hS2, List.length_range, writeBytes_zero, hA, ← hgtake,
    List.take_append_drop, ← hglen, truncateFile_self]

/-- Serializing a run of zero entries yields a run of zero bytes. -/
theorem serLocs_replicate_zero : ∀ n,
    serLocs (List.replicate n (0:Nat)) = List.replicate (4 * n) 0 := by
  intro n
  induction n with
  | zero => rfl
  | succ m ih =>
    have h1 : List.replicate (4 + 4 * m) (0:Nat) =
        List.replicate 4 0 ++ List.replicate (4 * m) 0 := List.replicate_add ..
    rw [show 4 * (m + 1) = 4 + 4 * m from by ring, h1]
    show u32Bytes 0 ++ serLocs (List.replicate m 0) = _
    rw [ih]
    rfl

/-- Parsing a run of zero bytes yields a run of zero entries. -/
theorem parseLocs_replicate_zero (n : Nat) :
    parseLocs (List.replicate (4 * n) 0) = List.replicate n 0 := by
  rw [← serLocs_replicate_zero]
  exact parseLocs_serLocs _ (fun v hv => by rw [List.eq_of_mem_replicate hv]; omega)

/-- The occupied-sector contribution of a run of empty entries is empty. -/
theorem flatMap_occ_replicate_zero : ∀ m, (List.replicate m (0:Nat)).flatMap
    (fun loc => if loc = 0 then [] else
      List.range' (locStart loc) (locCount loc)) = [] := by
  intro m
  induction m with
  | zero => rfl
  | succ k ih =>
    rw [List.replicate_succ, List.flatMap_cons, ih, List.append_nil]
    rfl

/-- A run of empty entries contributes nothing to the relocation map. -/
theorem foldl_initReloc_zeros : ∀ (m : Nat) (r : List (Nat × Int)),
    (List.replicate m (0:Nat)).foldl
      (fun r loc => if loc = 0 then r else relSet r (locStart loc) (-1)) r = r := by
  intro m
  induction m with
  | zero => intro r; rfl
  | succ k ih =>
    intro r
    simp only [List.replicate_succ, List.foldl_cons]
    exact ih r

/-- An all-zero location table occupies only the two header sectors. -/
theorem occSectors_replicate_zero (n : Nat) :
    occSectors (List.replicate n 0) = [0, 1] := by
  simp only [occSectors, flatMap_occ_replicate_zero, List.append_nil]

/-- The initial relocation map of an all-zero table is empty. -/
theorem initReloc_replicate_zero (n : Nat) :
    initReloc (List.replicate n 0) = [] := by
  unfold initReloc
  exact foldl_initReloc_zeros n []

/-- The table rewrite is the identity on an all-zero table. -/
theorem remapLocs_replicate_zero (r : List (Nat × Int)) :
    ∀ n, remapLocs r (List.replicate n 0) = .ok (List.replicate n 0) := by
  intro n
  induction n with
  | zero => rfl
  | succ k ih =>
    simp [List.replicate_succ, remapLocs, ih]

/-- Evaluation of the compactor on the 8 KiB empty region file: the two
header sectors are kept and the stale second half is removed. -/
theorem compact_replicate_eval :
    compactRegion (List.replicate 8192 0) = .ok (List.replicate 4096 0) := by
  have htab : readBytes (List.replicate 8192 (0:Nat)) 0 4096 =
      List.replicate 4096 0 := by
    simp only [readBytes, List.drop_zero, List.take_replicate]
    rw [show min 4096 8192 = 4096 from by omega]
  have hparse : parseLocs (List.replicate 4096 (0:Nat)) = List.replicate 1024 0 := by
    have h := parseLocs_replicate_zero 1024
    norm_num at h
    exact h
  have hocc : occSectors (List.replicate 1024 (0:Nat)) = [0, 1] :=
    occSectors_replicate_zero 1024
  have hsorted : sortNats [0, 1] = [0, 1] := rfl
  have hinit : initReloc (List.replicate 1024 (0:Nat)) = [] :=
    initReloc_replicate_zero 1024
  have hcl : copyLoop (([0, 1] : List Nat)).enum [] (List.replicate 8192 (0:Nat)) =
      .ok ([], List.replicate 8192 0) := rfl
  have hrm : remapLocs ([] : List (Nat × Int)) (List.replicate 1024 (0:Nat)) =
      .ok (List.replicate 1024 0) := remapLocs_replicate_zero [] 1024
  have hser : serLocs (List.replicate 1024 (0:Nat)) = List.replicate 4096 0 := by
    have h := serLocs_replicate_zero 1024
    norm_num at h
    exact h
  have hfin : truncateFile (writeBytes (List.replicate 8192 (0:Nat)) 0
      (List.replicate 4096 (0:Nat))) 4096 = List.replicate 4096 0 := by
    rw [writeBytes_zero, List.length_replicate, List.drop_replicate]
    rw [show (8192 - 4096 : Nat) = 4096 from by norm_num]
    rw [show List.replicate 4096 (0:Nat) ++ List.replicate 4096 (0:Nat) =
      List.replicate 8192 0 from by rw [← List.replicate_add]]
    unfold truncateFile
    rw [List.take_replicate, List.length_replicate]
    rw [show min 4096 8192 = 4096 from by omega]
    rw [show (4096 - 8192 : Nat) = 0 from by norm_num]
    rw [show List.replicate 0 (0:Nat) = ([] : List Nat) from rfl, List.append_nil]
  simp only [compactRegion, htab]
  rw [if_neg (by rw [List.length_replicate]; omega)]
  rw [hparse, hocc, hsorted]
  rw [if_neg (by decide : ¬(hasAdjDup [0, 1] = true))]
  rw [hinit, hcl]
  simp only [hrm]
  rw [hser]
  rw [show ((([0, 1] : List Nat)).length - 1) * 4096 = 4096 from by decide]
  rw [hfin]

/-- Witness for C3 at a concrete input: the compactor output of the 8 KiB
empty region file is a fixed point of the compactor. -/
theorem compact_idempotent_witness :
    compactRegion (List.replicate 4096 0) = .ok (List.replicate 4096 0) :=
  compact_idempotent (List.replicate 8192 0) (List.replicate 4096 0)
    (fun b hb => by rw [List.eq_of_mem_replicate hb]; omega)
    compact_replicate_eval

/-- Concatenating runs of zero bytes. -/
theorem replicate_merge (a b c : Nat) (h : a + b = c) :
    List.replicate a (0:Nat) ++ List.replicate b 0 = List.replicate c 0 := by
  rw [← List.replicate_add, h]

/-- Reading a whole sector out of the zero-filled tail of a file. -/
theorem readBytes_zeros_tail (T : Bytes) (m off : Nat) (hT : T.length = 4096)
    (hoff : 4096 ≤ off) (hfit : off + 4096 ≤ 4096 + m) :
    readBytes (T ++ List.replicate m 0) off 4096 = List.replicate 4096 0 := by
  unfold readBytes
  rw [List.drop_append_eq_append_drop, List.drop_eq_nil_of_le (by omega),
    List.nil_append, hT, List.drop_replicate, List.take_replicate]
  rw [show min 4096 (m - (off - 4096)) = 4096 from by omega]

/-- Writing a zero sector into the zero-filled tail of a file changes
nothing. -/
theorem writeBytes_zeros_tail (T : Bytes) (m off : Nat) (hT : T.length = 4096)
    (hoff : 4096 ≤ off) (hfit : off + 4096 ≤ 4096 + m) :
    writeBytes (T ++ List.replicate m 0) off (List.replicate 4096 0) =
      T ++ List.replicate m 0 := by
  have h1 : (T ++ List.replicate m (0:Nat)).take off =
      T ++ List.replicate (off - 4096) 0 := by
    rw [List.take_append_eq_append_take, List.take_of_length_le (by omega), hT,
      List.take_replicate, show min (off - 4096) m = off - 4096 from by omega]
  have h2 : off - (T ++ List.replicate m (0:Nat)).length = 0 := by
    rw [List.length_append, List.length_replicate, hT]
    omega
  have h3 : (T ++ List.replicate m (0:Nat)).drop
      (off + (List.replicate 4096 (0:Nat)).length) =
      List.replicate (m - (off + 4096 - 4096)) 0 := by
    rw [List.length_replicate, List.drop_append_eq_append_drop,
      List.drop_eq_nil_of_le (by omega), List.nil_append, hT, List.drop_replicate]
  unfold writeBytes
  rw [h1, h2, h3]
  rw [show List.replicate (0:Nat) (0:Nat) = ([]:List Nat) from rfl, List.append_nil]
  rw [List.append_assoc (T ++ List.replicate (off - 4096) 0)]
  rw [replicate_merge 4096 (m - (off + 4096 - 4096)) (m - (off - 4096)) (by omega)]
  rw [List.append_assoc]
  rw [replicate_merge (off - 4096) (m - (off - 4096)) m (by omega)]

/-- One relocation step of the copy loop. -/
theorem copyLoop_copy_step (i j : Nat) (rest : List (Nat × Nat))
    (r : List (Nat × Int)) (f : Bytes)
    (hij : i < j) (hsome : (relGet r j).isSome = true)
    (hlen : (readBytes f (j * 4096) 4096).length = 4096) :
    copyLoop ((i, j) :: rest) r f =
      copyLoop rest (relSet r j (Int.ofNat i))
        (writeBytes f (i * 4096) (readBytes f (j * 4096) 4096)) := by
  simp only [copyLoop, hsome, if_true]
  rw [if_neg (by omega : ¬ i > j), if_neg (by omega : ¬ i = j)]
  rw [if_neg (by rw [hlen]; omega : ¬ (readBytes f (j * 4096) 4096).length ≠ 4096)]

/-- One already-in-place step of the copy loop. -/
theorem copyLoop_skip_step (i : Nat) (rest : List (Nat × Nat))
    (r : List (Nat × Int)) (f : Bytes) :
    copyLoop ((i, i) :: rest) r f =
      copyLoop rest
        (if (relGet r i).isSome then relSet r i (Int.ofNat i) else r) f := by
  simp only [copyLoop]
  rw [if_neg (by omega : ¬ i > i), if_pos trivial]

/-- One populated entry of the table rewrite. -/
theorem remapLocs_cons_ne (r : List (Nat × Int)) (loc : Nat) (rest : List Nat)
    (ns : Int) (rs : List Nat)
    (h0 : loc ≠ 0) (hget : relGet r (locStart loc) = some ns)
    (hrest : remapLocs r rest = .ok rs) :
    remapLocs r (loc :: rest) =
      .ok ((uint32OfInt (ns * 256) ||| locCount loc) :: rs) := by
  simp only [remapLocs, if_neg h0, hget, hrest]

/-- The example location table of the spec's compaction walk-through:
chunk slots at sectors [2..3), [5..6) and [10..11), all other entries
empty (513 = 2*256+1, 1281 = 5*256+1, 2561 = 10*256+1). -/
def locsEx : List Nat :=
  513 :: 1281 :: 2561 :: List.replicate 1021 0

/-- The example region file: the serialized example table followed by ten
4 KiB sectors of zero data, spanning sectors 0 through 10. -/
def exampleRegion : Bytes :=
  serLocs locsEx ++ List.replicate 40960 0

/-- C2 (refuted: code bug): every successful compaction truncates the file
to (N - 1) * 4096 bytes, where N is the number of distinct occupied
sectors counting the two header sectors — one sector short of the
N * 4096 bytes the claim states.  On the example region with chunk slots
[2..3), [5..6), [10..11) the occupied sectors are exactly 0, 1, 2, 5, 10,
so N = 5, and the compactor returns a 16384-byte file, not the claimed
5 * 4096 = 20480 bytes: the last occupied sector is cut off. -/
theorem compact_truncates_one_sector_short :
    (∀ f g, compactRegion f = .ok g →
       g.length =
         ((sortNats (occSectors (parseLocs (readBytes f 0 4096)))).length - 1)
           * 4096) ∧
    sortNats (occSectors (parseLocs (readBytes exampleRegion 0 4096))) =
      [0, 1, 2, 5, 10] ∧
    (∃ out, compactRegion exampleRegion = .ok out ∧ out.length = 16384) ∧
    (16384 : Nat) ≠ 5 * 4096 := by
  have hT : (serLocs locsEx).length = 4096 := by
    rw [serLocs_length]
    unfold locsEx
    rw [List.length_cons, List.length_cons, List.length_cons,
      List.length_replicate]
  have htabE : readBytes exampleRegion 0 4096 = serLocs locsEx := by
    unfold exampleRegion
    simp only [readBytes, List.drop_zero]
    rw [List.take_append_eq_append_take, List.take_of_length_le (by omega), hT]
    rw [show (4096 - 4096 : Nat) = 0 from by norm_num, List.take_zero,
      List.append_nil]
  have hparseE : parseLocs (serLocs locsEx) = locsEx := by
    refine parseLocs_serLocs _ ?_
    intro v hv
    unfold locsEx at hv
    simp only [List.mem_cons] at hv
    rcases hv with rfl | rfl | rfl | hv
    · omega
    · omega
    · omega
    · rw [List.eq_of_mem_replicate hv]
      omega
  have hoccE : occSectors locsEx = [0, 1, 2, 5, 10] := by
    unfold locsEx
    simp only [occSectors, List.flatMap_cons, flatMap_occ_replicate_zero]
    rfl
  have hsortE : sortNats [0, 1, 2, 5, 10] = [0, 1, 2, 5, 10] := rfl
  have hinitE : initReloc locsEx = [(2, -1), (5, -1), (10, -1)] := by
    unfold initReloc locsEx
    simp only [List.foldl_cons]
    rw [foldl_initReloc_zeros]
    rfl
  have hr1 : readBytes exampleRegion 20480 4096 = List.replicate 4096 0 := by
    unfold exampleRegion
    exact readBytes_zeros_tail _ _ _ hT (by omega) (by omega)
  have hw1 : writeBytes exampleRegion 12288 (List.replicate 4096 0) =
      exampleRegion := by
    unfold exampleRegion
    exact writeBytes_zeros_tail _ _ _ hT (by omega) (by omega)
  have hr2 : readBytes exampleRegion 40960 4096 = List.replicate 4096 0 := by
    unfold exampleRegion
    exact readBytes_zeros_tail _ _ _ hT (by omega) (by omega)
  have hw2 : writeBytes exampleRegion 16384 (List.replicate 4096 0) =
      exampleRegion := by
    unfold exampleRegion
    exact writeBytes_zeros_tail _ _ _ hT (by omega) (by omega)
  have hcl : copyLoop (([0, 1, 2, 5, 10] : List Nat)).enum
      [(2, -1), (5, -1), (10, -1)] exampleRegion =
      .ok ([(2, 2), (5, 3), (10, 4)], exampleRegion) := by
    show copyLoop [(0, 0), (1, 1), (2, 2), (3, 5), (4, 10)]
      [(2, -1), (5, -1), (10, -1)] exampleRegion = _
    rw [copyLoop_skip_step]
    show copyLoop [(1, 1), (2, 2), (3, 5), (4, 10)]
      [(2, -1), (5, -1), (10, -1)] exampleRegion = _
    rw [copyLoop_skip_step]
    show copyLoop [(2, 2), (3, 5), (4, 10)]
      [(2, -1), (5, -1), (10, -1)] exampleRegion = _
    rw [copyLoop_skip_step]
    show copyLoop [(3, 5), (4, 10)] [(2, 2), (5, -1), (10, -1)] exampleRegion = _
    rw [copyLoop_copy_step 3 5 _ [(2, 2), (5, -1), (10, -1)] exampleRegion
      (by omega) rfl
      (by rw [show (5 * 4096 : Nat) = 20480 from by norm_num, hr1,
        List.length_replicate])]
    rw [show (5 * 4096 : Nat) = 20480 from by norm_num,
      show (3 * 4096 : Nat) = 12288 from by norm_num, hr1, hw1]
    show copyLoop [(4, 10)] [(2, 2), (5, 3), (10, -1)] exampleRegion = _
    rw [copyLoop_copy_step 4 10 _ [(2, 2), (5, 3), (10, -1)] exampleRegion
      (by omega) rfl
      (by rw [show (10 * 4096 : Nat) = 40960 from by norm_num, hr2,
        List.length_replicate])]
    rw [show (10 * 4096 : Nat) = 40960 from by norm_num,
      show (4 * 4096 : Nat) = 16384 from by norm_num, hr2, hw2]
    rfl
  have hrm : remapLocs [(2, 2), (5, 3), (10, 4)] locsEx =
      .ok ((uint32OfInt (2 * 256) ||| locCount 513) ::
        (uint32OfInt (3 * 256) ||| locCount 1281) ::
        (uint32OfInt (4 * 256) ||| locCount 2561) :: List.replicate 1021 0) := by
    unfold locsEx
    refine remapLocs_cons_ne _ _ _ _ _ (by omega) rfl ?_
    refine remapLocs_cons_ne _ _ _ _ _ (by omega) rfl ?_
    refine remapLocs_cons_ne _ _ _ _ _ (by omega) rfl ?_
    exact remapLocs_replicate_zero _ 1021
  have hrun : compactRegion exampleRegion =
      .ok (truncateFile (writeBytes exampleRegion 0 (serLocs
        ((uint32OfInt (2 * 256) ||| locCount 513) ::
         (uint32OfInt (3 * 256) ||| locCount 1281) ::
         (uint32OfInt (4 * 256) ||| locCount 2561) :: List.replicate 1021 0)))
        ((([0, 1, 2, 5, 10] : List Nat).length - 1) * 4096)) := by
    simp only [compactRegion, htabE]
    rw [if_neg (by rw [hT]; omega)]
    rw [hparseE, hoccE, hsortE]
    rw [if_neg (by decide : ¬(hasAdjDup [0, 1, 2, 5, 10] = true))]
    rw [hinitE, hcl]
    simp only [hrm]
  refine ⟨?_, ?_, ⟨_, hrun, ?_⟩, by omega⟩
  · intro f g hfg
    obtain ⟨_, reloc, f1, locs2, _, _, _, hg⟩ := compactRegion_inv f g hfg
    rw [hg, truncateFile_length]
  · rw [htabE, hparseE, hoccE]
    exact hsortE
  · rw [truncateFile_length]
    decide

/-- Witness for C2 at a concrete input: the truncation-length formula of a
successful run, instantiated on the all-zero region file. -/
theorem compact_truncates_one_sector_short_witness :
    (List.replicate 4096 (0:Nat)).length =
      ((sortNats (occSectors (parseLocs
        (readBytes (List.replicate 8192 0) 0 4096)))).length - 1) * 4096 :=
  compact_truncates_one_sector_short.1 (List.replicate 8192 0)
    (List.replicate 4096 0) compact_replicate_eval

/-- In-memory engine state of the patch command: the currently loaded
chunk, if any, and the global compaction-advisory flag. -/
structure PatchState where
  chunk : Option ChunkData
  shouldCompact : Bool
deriving Repr

/-- Sector count the saved chunk will occupy: the 4-byte length field,
the 1-byte compression type and the encoded body (length = body + 1),
rounded up to whole 4 KiB sectors, exactly as the source computes it. -/
def newSectorCount (buf : Bytes) : Nat :=
  if (buf.length + 1 + 4) % 4096 ≠ 0 then (buf.length + 1 + 4) / 4096 + 1
  else (buf.length + 1 + 4) / 4096

/-- Translation of saveChunk from part_000: nothing happens without a
dirty loaded chunk; otherwise read the chunk's location entry, read the
stored chunk header for its compression byte, encode the tree through the
opaque compression-and-NBT writer (enc none models an encoding failure),
size the encoding in whole sectors, on growth relocate the chunk to the
end of the file unless its old allocation already touches it, set the
global compaction flag and rewrite the table entry whenever the sector
count changed at all, then write the length field, skip over the stored
compression byte, write the body, and zero-pad to the sector boundary. -/
def saveChunk (enc : Nat → List (Str × Nbt) → Option Bytes)
    (st : PatchState) (f : Bytes) : GoResult (PatchState × Bytes) :=
  match st.chunk with
  | none => .ok (st, f)
  | some ch =>
    if ch.updates = 0 then .ok (st, f)
    else
      let dxz := chunkPos ch.x ch.z
      let dx := dxz.2.2.1.toNat
      let dz := dxz.2.2.2.toNat
      let idx := 4 * (dz * 32 + dx)
      (match readBytes f idx 4 with
       | [b0, b1, b2, b3] =>
         let loc := beU32 b0 b1 b2 b3
         let offset := (4096 * (loc &&& 0xffffff00) % 4294967296) >>> 8
         let sectors := loc &&& 0xff
         (match readBytes f offset 5 with
          | [_, _, _, _, comp] =>
            if comp ≠ 1 ∧ comp ≠ 2 ∧ comp ≠ 3 then .err .badCompression
            else
              (match enc comp ch.nbt with
               | none => .err .encodeFailed
               | some buf =>
                 let newSectors := newSectorCount buf
                 if newSectors > 255 then .err .chunkTooLarge
                 else
                   (match
                      (if newSectors > sectors then
                         (if f.length % 4096 ≠ 0 then .err .notAligned
                          else if offset + sectors * 4096 < f.length then
                            .ok f.length
                          else .ok offset)
                       else .ok offset : GoResult Nat) with
                    | .err e => .err e
                    | .crash => .crash
                    | .ok offset2 =>
                      let st2 :=
                        if newSectors ≠ sectors then
                          (⟨st.chunk, true⟩ : PatchState)
                        else st
                      let f2 :=
                        if newSectors ≠ sectors then
                          writeBytes f idx
                            (u32Bytes (offset2 / 4096 * 256 % 4294967296 |||
                              newSectors))
                        else f
                      let f3 := writeBytes f2 offset2
                        (u32Bytes ((buf.length + 1) % 4294967296))
                      let f4 := writeBytes f3 (offset2 + 5) buf
                      let pos := offset2 + 5 + buf.length
                      let f5 :=
                        if pos % 4096 ≠ 0 then
                          writeBytes f4 pos
                            (List.replicate (4096 - pos % 4096) 0)
                        else f4
                      .ok (st2, f5)))
          | _ => .err .headShort)
       | _ => .err .locShort)

/-- C5: patching a string leaf to the value it already holds succeeds and
is a no-op on the tree and the updates counter, and a save with no loaded
chunk, or with a loaded chunk whose updates counter is zero, returns
immediately without touching the file or the engine state. -/
theorem patch_noop_no_write :
    (∀ (t : Nbt) (path value : Str),
       resolvePath t (splitOnChar '/' path) = .ok value →
       patchString t path value = ⟨t, 0, none⟩) ∧
    (∀ (enc : Nat → List (Str × Nbt) → Option Bytes) (st : PatchState)
       (f : Bytes),
       st.chunk = none ∨ (∃ ch, st.chunk = some ch ∧ ch.updates = 0) →
       saveChunk enc st f = .ok (st, f)) := by
  constructor
  · exact patchString_noop
  · intro enc st f h
    rcases h with h | ⟨ch, hch, hupd⟩
    · unfold saveChunk
      rw [h]
    · unfold saveChunk
      simp only [hch]
      rw [if_pos hupd]

/-- Witness for C5 at a concrete input: rewriting the one string leaf of a
one-entry compound with its current value, and saving with no loaded
chunk. -/
theorem patch_noop_no_write_witness :
    patchString (Nbt.compound [(['a'], Nbt.str ['x'])]) ['a'] ['x'] =
      ⟨Nbt.compound [(['a'], Nbt.str ['x'])], 0, none⟩ ∧
    saveChunk (fun _ _ => none) ⟨none, false⟩ [] = .ok (⟨none, false⟩, []) :=
  ⟨patch_noop_no_write.1 (Nbt.compound [(['a'], Nbt.str ['x'])]) ['a'] ['x'] rfl,
   patch_noop_no_write.2 (fun _ _ => none) ⟨none, false⟩ [] (Or.inl rfl)⟩

/-- Counterexample to C8 as stated: a successful save that shrinks the
chunk — the fresh encoding needs 1 sector, the stored location entry says
2 — still sets the global compaction flag, although the claim says a save
with new sector count at most the old leaves the flag unchanged. -/
theorem saveChunk_shrink_sets_flag_cex :
    ∃ f2, saveChunk (fun _ _ => some (List.replicate 100 0))
        ⟨some ⟨0, 0, 0, [], 1⟩, false⟩
        ([0, 0, 0, 2, 2, 0, 0, 0] ++ List.replicate 8184 0) =
      .ok (⟨some ⟨0, 0, 0, [], 1⟩, true⟩, f2) ∧
    newSectorCount (List.replicate 100 0) = 1 ∧
    beU32 0 0 0 2 &&& 0xff = 2 :=
  ⟨_, rfl, rfl, rfl⟩

/-- C8 (amended): on a successful save of a dirty chunk, the global
compaction flag is set exactly when the fresh encoding's sector count
differs from the sector count stored in the location entry — grown or
shrunk — and is left unchanged only when the counts agree; the loaded
chunk itself is untouched.  A save of a clean or absent chunk changes no
state at all. -/
theorem saveChunk_flag_on_any_resize
    (enc : Nat → List (Str × Nbt) → Option Bytes) (st : PatchState)
    (f : Bytes) (ch : ChunkData) (st2 : PatchState) (f2 : Bytes)
    (b0 b1 b2 b3 : Nat) (buf : Bytes)
    (hch : st.chunk = some ch)
    (hloc : readBytes f (4 * ((chunkPos ch.x ch.z).2.2.2.toNat * 32 +
        (chunkPos ch.x ch.z).2.2.1.toNat)) 4 = [b0, b1, b2, b3])
    (henc : ∀ c, enc c ch.nbt = some buf)
    (h : saveChunk enc st f = .ok (st2, f2)) :
    (st2.chunk = st.chunk ∧
     st2.shouldCompact =
       (if newSectorCount buf ≠ (beU32 b0 b1 b2 b3 &&& 0xff) then true
        else st.shouldCompact)) ∨
    (st2 = st ∧ ch.updates = 0) := by
  by_cases hupd : ch.updates = 0
  · right
    unfold saveChunk at h
    simp only [hch] at h
    rw [if_pos hupd] at h
    simp only [GoResult.ok.injEq, Prod.mk.injEq] at h
    exact ⟨h.1.symm, hupd⟩
  · left
    unfold saveChunk at h
    simp only [hch, hloc] at h
    rw [if_neg hupd] at h
    split at h
    · rename_i comp heq
      split at h
      · exact absurd h (by simp)
      · rw [henc comp] at h
        simp only [] at h
        split at h
        · exact absurd h (by simp)
        · split at h
          · exact absurd h (by simp)
          · exact absurd h (by simp)
          · rename_i offset2 hoff
            simp only [GoResult.ok.injEq, Prod.mk.injEq] at h
            obtain ⟨hst2, _⟩ := h
            by_cases hns : newSectorCount buf ≠ (beU32 b0 b1 b2 b3 &&& 255)
            · rw [if_pos hns] at hst2
              rw [← hst2, if_pos hns]
              exact ⟨hch.symm, rfl⟩
            · rw [if_neg hns] at hst2
              rw [← hst2, if_neg hns]
              exact ⟨rfl, rfl⟩
    · exact absurd h (by simp)

/-- Witness for C8 (amended) at a concrete input: the shrinking save of
the counterexample satisfies the amended flag equation. -/
theorem saveChunk_flag_on_any_resize_witness :
    ((⟨some ⟨0, 0, 0, [], 1⟩, true⟩ : PatchState).chunk =
        (⟨some ⟨0, 0, 0, [], 1⟩, false⟩ : PatchState).chunk ∧
      (⟨some ⟨0, 0, 0, [], 1⟩, true⟩ : PatchState).shouldCompact =
        (if newSectorCount (List.replicate 100 0) ≠ (beU32 0 0 0 2 &&& 0xff)
         then true
         else (⟨some ⟨0, 0, 0, [], 1⟩, false⟩ : PatchState).shouldCompact)) ∨
    ((⟨some ⟨0, 0, 0, [], 1⟩, true⟩ : PatchState) =
        ⟨some ⟨0, 0, 0, [], 1⟩, false⟩ ∧
      (⟨0, 0, 0, [], 1⟩ : ChunkData).updates = 0) :=
  saveChunk_flag_on_any_resize (fun _ _ => some (List.replicate 100 0))
    ⟨some ⟨0, 0, 0, [], 1⟩, false⟩
    ([0, 0, 0, 2, 2, 0, 0, 0] ++ List.replicate 8184 0)
    ⟨0, 0, 0, [], 1⟩ ⟨some ⟨0, 0, 0, [], 1⟩, true⟩ _
    0 0 0 2 (List.replicate 100 0) rfl (by rfl) (fun _ => rfl) (by rfl)

/-- Character facts about decimal digit characters. -/
theorem digitCh_props (n : Nat) (h : n < 10) :
    isDigitCh (digitCh n) = true ∧ (digitCh n) ≠ '/' ∧ (digitCh n) ≠ '[' ∧
      (digitCh n) ≠ ']' ∧ (digitCh n).toNat = 48 + n := by
  interval_cases n <;> exact ⟨rfl, by decide, by decide, by decide, rfl⟩

/-- Appending one digit multiplies the decimal value by ten. -/
theorem decVal_append_digit (s : Str) (c : Char) :
    decVal (s ++ [c]) = decVal s * 10 + (c.toNat - 48) := by
  unfold decVal
  rw [List.foldl_append]
  rfl

/-- The fueled decimal rendering is correct, nonempty, and consists of
digit characters whenever the fuel exceeds the number. -/
theorem natToDecAux_spec : ∀ (fuel n : Nat), n < fuel →
    decVal (natToDecAux fuel n) = n ∧ natToDecAux fuel n ≠ [] ∧
      ∀ c ∈ natToDecAux fuel n,
        isDigitCh c = true ∧ c ≠ '/' ∧ c ≠ '[' ∧ c ≠ ']' := by
  intro fuel
  induction fuel with
  | zero => intro n h; omega
  | succ f ih =>
    intro n h
    by_cases h10 : n < 10
    · have hone : natToDecAux (f + 1) n = [digitCh n] := by
        simp only [natToDecAux, if_pos h10]
      have hp := digitCh_props n h10
      refine ⟨?_, by simp [hone], ?_⟩
      · rw [hone]
        show 0 * 10 + ((digitCh n).toNat - 48) = n
        rw [hp.2.2.2.2]
        omega
      · intro c hc
        rw [hone, List.mem_singleton] at hc
        subst hc
        exact ⟨hp.1, hp.2.1, hp.2.2.1, hp.2.2.2.1⟩
    · have hrec : natToDecAux (f + 1) n =
          natToDecAux f (n / 10) ++ [digitCh (n % 10)] := by
        simp only [natToDecAux, if_neg h10]
      have hn10 : n / 10 < f := by omega
      obtain ⟨ih1, ih2, ih3⟩ := ih (n / 10) hn10
      have hp := digitCh_props (n % 10) (by omega)
      refine ⟨?_, by simp [hrec], ?_⟩
      · rw [hrec, decVal_append_digit, ih1, hp.2.2.2.2]
        omega
      · intro c hc
        rw [hrec] at hc
        rcases List.mem_append.mp hc with hc | hc
        · exact ih3 c hc
        · rw [List.mem_singleton.mp hc]
          exact ⟨hp.1, hp.2.1, hp.2.2.1, hp.2.2.2.1⟩

/-- The decimal rendering of any natural parses back to itself, is
nonempty, and consists of digit characters. -/
theorem natToDec_spec (n : Nat) :
    decVal (natToDec n) = n ∧ natToDec n ≠ [] ∧
      ∀ c ∈ natToDec n, isDigitCh c = true ∧ c ≠ '/' ∧ c ≠ '[' ∧ c ≠ ']' :=
  natToDecAux_spec (n + 1) n (by omega)

/-- takeWhile over a fully-satisfying prefix stops exactly at a failing
head of the suffix. -/
theorem takeWhile_append_of_all {p : Char → Bool} :
    ∀ (a b : Str), (∀ c ∈ a, p c = true) →
      (∀ g, b.head? = some g → p g = false) →
      (a ++ b).takeWhile p = a := by
  intro a
  induction a with
  | nil =>
    intro b _ hb
    cases b with
    | nil => rfl
    | cons g gs =>
      simp only [List.nil_append, List.takeWhile, hb g rfl]
  | cons c cs ih =>
    intro b ha hb
    simp only [List.cons_append, List.takeWhile, ha c (by simp)]
    exact congrArg (fun l => c :: l) (ih b (fun d hd => ha d (by simp [hd])) hb)

/-- dirRE accepts a plain nonempty name of name characters as a bare key
component. -/
theorem parseComponent_name (k : Str) (hne : k ≠ [])
    (hk : ∀ c ∈ k, isNameCh c = true) :
    parseComponent k = some (k, none) := by
  have h1 : k.takeWhile isNameCh = k := by
    have h := takeWhile_append_of_all k [] hk (fun g hg => by simp at hg)
    rwa [List.append_nil] at h
  simp only [parseComponent, h1, List.drop_length]
  rw [if_neg (by simp [hne])]

/-- dirRE accepts NAME[IDX] for a good name and a rendered decimal index,
recovering the name and the index. -/
theorem parseComponent_indexed (k : Str) (i : Nat) (hne : k ≠ [])
    (hk : ∀ c ∈ k, isNameCh c = true) :
    parseComponent (k ++ '[' :: (natToDec i ++ [']'])) = some (k, some i) := by
  obtain ⟨hval, hnz, hdig⟩ := natToDec_spec i
  have h1 : (k ++ '[' :: (natToDec i ++ [']'])).takeWhile isNameCh = k :=
    takeWhile_append_of_all k _ hk
      (fun g hg => by simp only [List.head?_cons, Option.some_inj] at hg; subst hg; rfl)
  have h2 : (natToDec i ++ [']']).takeWhile isDigitCh = natToDec i :=
    takeWhile_append_of_all (natToDec i) [']'] (fun c hc => (hdig c hc).1)
      (fun g hg => by simp only [List.head?_cons, Option.some_inj] at hg; subst hg; rfl)
  simp only [parseComponent, h1, List.drop_left]
  rw [if_neg (by simp [hne])]
  simp only [h2]
  rw [if_neg (by simp [hnz]), if_pos (by rw [List.drop_left]), hval]

/-- Splitting a separator-free string yields a single field. -/
theorem splitOnChar_no_sep (sep : Char) :
    ∀ (s : Str), (∀ c ∈ s, c ≠ sep) → splitOnChar sep s = [s] := by
  intro s
  induction s with
  | nil => intro _; rfl
  | cons c cs ih =>
    intro h
    have hcs := ih (fun d hd => h d (by simp [hd]))
    simp only [splitOnChar, if_neg (h c (by simp)), hcs]

/-- Splitting after a separator-free prefix extends the first field. -/
theorem splitOnChar_append_free (sep : Char) :
    ∀ (a b : Str) (g : Str) (gs : List Str), (∀ c ∈ a, c ≠ sep) →
      splitOnChar sep b = g :: gs →
      splitOnChar sep (a ++ b) = (a ++ g) :: gs := by
  intro a
  induction a with
  | nil =>
    intro b g gs _ hb
    simpa using hb
  | cons c cs ih =>
    intro b g gs ha hb
    have hcs := ih b g gs (fun d hd => ha d (by simp [hd])) hb
    have hcs2 : splitOnChar sep (cs.append b) = (cs ++ g) :: gs := hcs
    simp only [List.cons_append, splitOnChar, if_neg (ha c (by simp)), hcs, hcs2]

/-- Splitting at an explicit separator after a separator-free prefix. -/
theorem splitOnChar_sep (sep : Char) (a b : Str) (ha : ∀ c ∈ a, c ≠ sep) :
    splitOnChar sep (a ++ sep :: b) = a :: splitOnChar sep b := by
  have h1 : splitOnChar sep (sep :: b) = [] :: splitOnChar sep b := by
    simp [splitOnChar]
  have h2 := splitOnChar_append_free sep a (sep :: b) [] (splitOnChar sep b) ha h1
  rwa [List.append_nil] at h2

mutual

/-- Well-formedness of a decoded NBT tree for the extract-patch
round-trip: compound keys are nonempty, free of the slash and opening
bracket that the path syntax reserves, and distinct within a compound;
and no list sits directly inside a list (the path grammar of the patch
command has no component for a doubly-indexed step). -/
def goodNbt : Nbt → Bool
  | .str _ => true
  | .other _ => true
  | .compound m => goodEntries m
  | .list xs => goodElems xs

/-- Entry-list half of goodNbt. -/
def goodEntries : List (Str × Nbt) → Bool
  | [] => true
  | (k, v) :: rest =>
    (!k.isEmpty) && k.all isNameCh && (lookupC rest k).isNone &&
      goodNbt v && goodEntries rest

/-- Element-list half of goodNbt. -/
def goodElems : List Nbt → Bool
  | [] => true
  | x :: xs =>
    (match x with | .list _ => false | _ => true) && goodNbt x && goodElems xs

end

/-- lookupC misses exactly the absent keys. -/
theorem lookupC_eq_none : ∀ (m : List (Str × Nbt)) (k : Str),
    lookupC m k = none ↔ ∀ e ∈ m, e.1 ≠ k := by
  intro m k
  induction m with
  | nil => simp [lookupC]
  | cons e rest ih =>
    obtain ⟨k0, v0⟩ := e
    by_cases hk : k0 = k
    · subst hk
      simp [lookupC, ih]
    · simp [lookupC, hk, ih]

/-- Lookup finds the stored value of any present key of a good entry
list (keys are distinct). -/
theorem lookupC_good_mem : ∀ (m : List (Str × Nbt)) (k : Str) (v : Nbt),
    goodEntries m = true → (k, v) ∈ m → lookupC m k = some v := by
  intro m
  induction m with
  | nil =>
    intro k v _ hm
    simp at hm
  | cons e rest ih =>
    intro k v hg hm
    obtain ⟨k0, v0⟩ := e
    simp only [goodEntries, Bool.and_eq_true] at hg
    obtain ⟨⟨⟨⟨hne, hnm⟩, hnd⟩, hgv⟩, hgr⟩ := hg
    rcases List.mem_cons.mp hm with he | hm2
    · rw [Prod.mk.injEq] at he
      obtain ⟨hk, hv⟩ := he
      subst hk
      subst hv
      simp [lookupC]
    · by_cases hk : k0 = k
      · subst hk
        exfalso
        have hnone := (lookupC_eq_none rest k0).mp (Option.isNone_iff_eq_none.mp hnd)
        exact hnone (k0, v) hm2 rfl
      · simp only [lookupC, if_neg hk]
        exact ih k v hgr hm2

/-- A missing binding is the same as absence from the key image. -/
theorem lookupC_isNone_iff (rest : List (Str × Nbt)) (k : Str) :
    (lookupC rest k).isNone = true ↔ k ∉ rest.map Prod.fst := by
  rw [Option.isNone_iff_eq_none, lookupC_eq_none]
  constructor
  · intro h hk
    obtain ⟨f, hf, hfe⟩ := List.mem_map.mp hk
    exact h f hf hfe
  · intro h f hf hfe
    exact h (List.mem_map.mpr ⟨f, hf, hfe⟩)

/-- Propositional reading of goodEntries: pointwise goodness and
distinctness of the key image. -/
theorem goodEntries_props : ∀ (m : List (Str × Nbt)),
    goodEntries m = true ↔
      ((∀ e ∈ m, e.1 ≠ [] ∧ (∀ c ∈ e.1, isNameCh c = true) ∧
          goodNbt e.2 = true) ∧
        (m.map Prod.fst).Nodup) := by
  intro m
  induction m with
  | nil => simp [goodEntries]
  | cons e rest ih =>
    obtain ⟨k0, v0⟩ := e
    simp only [goodEntries, Bool.and_eq_true, ih, List.map_cons, List.nodup_cons,
      List.mem_cons, lookupC_isNone_iff, Bool.not_eq_eq_eq_not, Bool.not_true,
      List.isEmpty_eq_false, List.all_eq_true]
    constructor
    · rintro ⟨⟨⟨⟨hne, hnm⟩, hnd⟩, hgv⟩, hall, hnodup⟩
      refine ⟨?_, hnd, hnodup⟩
      rintro f (rfl | hf)
      · exact ⟨hne, hnm, hgv⟩
      · exact hall f hf
    · rintro ⟨hall, hnd, hnodup⟩
      obtain ⟨h1, h2, h3⟩ := hall (k0, v0) (Or.inl rfl)
      exact ⟨⟨⟨⟨h1, h2⟩, hnd⟩, h3⟩, fun f hf => hall f (Or.inr hf), hnodup⟩

/-- Ordered insertion permutes. -/
theorem insertEntry_perm (e : Str × Nbt) (l : List (Str × Nbt)) :
    List.Perm (insertEntry e l) (e :: l) := by
  induction l with
  | nil => exact List.Perm.refl _
  | cons f fs ih =>
    simp only [insertEntry]
    split
    · exact List.Perm.refl _
    · exact (List.Perm.cons f ih).trans (List.Perm.swap e f fs)

/-- The key sort of findStrings permutes the entry list. -/
theorem sortEntries_perm (m : List (Str × Nbt)) :
    List.Perm (sortEntries m) m := by
  induction m with
  | nil => exact List.Perm.refl _
  | cons e es ih =>
    exact (insertEntry_perm e (sortEntries es)).trans (List.Perm.cons e ih)

/-- Goodness of an entry list survives the key sort. -/
theorem goodEntries_sortEntries (m : List (Str × Nbt))
    (h : goodEntries m = true) : goodEntries (sortEntries m) = true := by
  rw [goodEntries_props] at h ⊢
  have hperm := sortEntries_perm m
  refine ⟨fun e he => h.1 e (hperm.mem_iff.mp he), ?_⟩
  exact ((hperm.map Prod.fst).nodup_iff).mpr h.2

/-- Elements of a good element list are good and are not lists. -/
theorem goodElems_mem : ∀ (xs : List Nbt) (x : Nbt), goodElems xs = true →
    x ∈ xs → goodNbt x = true ∧ ∀ ys, x ≠ .list ys := by
  intro xs
  induction xs with
  | nil =>
    intro x _ hx
    simp at hx
  | cons a rest ih =>
    intro x hg hx
    simp only [goodElems, Bool.and_eq_true] at hg
    obtain ⟨⟨hnl, hga⟩, hgr⟩ := hg
    rcases List.mem_cons.mp hx with rfl | hx2
    · refine ⟨hga, ?_⟩
      intro ys hys
      subst hys
      simp at hnl
    · exact ih x hgr hx2

/-- Path rendering of an address, mirroring the join chain findStrings
emits: keys join with a slash, bracketed indices concatenate. -/
def renderLoc : Loc → Str
  | [] => []
  | .key k :: rest => join k (renderLoc rest)
  | .idx i :: rest => join ('[' :: (natToDec i ++ [']'])) (renderLoc rest)

/-- Path components of an address: a key directly followed by an index
fuses into one NAME[IDX] component, a bare key stands alone.  (The
leading-index arm is never reached from a compound root.) -/
def partsOf : Loc → List Str
  | [] => []
  | .key k :: .idx i :: rest => (k ++ '[' :: (natToDec i ++ [']'])) :: partsOf rest
  | .key k :: rest => k :: partsOf rest
  | .idx i :: rest => ('[' :: (natToDec i ++ [']'])) :: partsOf rest

/-- Structural well-formedness of an emitted address: keys are nonempty
name-character strings and no index step directly follows an index
step. -/
def wfSteps : Loc → Bool
  | [] => true
  | .key k :: rest => (!k.isEmpty) && k.all isNameCh && wfSteps rest
  | .idx _ :: .idx _ :: _ => false
  | .idx _ :: rest => wfSteps rest

/-- Name characters are neither the slash nor the opening bracket. -/
theorem isNameCh_props (c : Char) (h : isNameCh c = true) :
    c ≠ '/' ∧ c ≠ '[' := by
  unfold isNameCh at h
  simp only [Bool.and_eq_true, bne_iff_ne] at h
  exact h

/-- Joining the empty suffix. -/
theorem join_nil (a : Str) : join a [] = a := rfl

/-- Joining a bracket-headed suffix concatenates. -/
theorem join_bracket (a : Str) (cs : Str) : join a ('[' :: cs) = a ++ '[' :: cs := rfl

/-- Joining any other suffix inserts a slash. -/
theorem join_slash (a : Str) (c : Char) (cs : Str) (hc : c ≠ '[') :
    join a (c :: cs) = a ++ '/' :: c :: cs := by
  show (if c = '[' then a ++ c :: cs else a ++ '/' :: c :: cs) = a ++ '/' :: c :: cs
  rw [if_neg hc]

/-- A rendered address headed by a key starts with the key's first
character. -/
theorem renderLoc_key_head (c : Char) (cs : Str) (rest : Loc) :
    ∃ ds, renderLoc (.key (c :: cs) :: rest) = c :: ds := by
  have h0 : renderLoc (.key (c :: cs) :: rest) = join (c :: cs) (renderLoc rest) := rfl
  rw [h0]
  cases hr : renderLoc rest with
  | nil => exact ⟨cs, rfl⟩
  | cons r rs =>
    by_cases hbr : r = '['
    · subst hbr
      rw [join_bracket]
      exact ⟨cs ++ '[' :: rs, rfl⟩
    · rw [join_slash _ _ _ hbr]
      exact ⟨cs ++ '/' :: r :: rs, rfl⟩

/-- A nonempty key heads its rendering with one of its characters. -/
theorem renderLoc_key_head2 (k : Str) (hk : k ≠ []) (rest : Loc) :
    ∃ c ds, renderLoc (.key k :: rest) = c :: ds ∧ c ∈ k := by
  cases k with
  | nil => exact absurd rfl hk
  | cons c cs =>
    obtain ⟨ds, hds⟩ := renderLoc_key_head c cs rest
    exact ⟨c, ds, hds, by simp⟩

/-- A rendered address headed by an index starts with the opening
bracket. -/
theorem renderLoc_idx_head (i : Nat) (rest : Loc) :
    ∃ ds, renderLoc (.idx i :: rest) = '[' :: ds := by
  have h0 : renderLoc (.idx i :: rest) =
      join ('[' :: (natToDec i ++ [']'])) (renderLoc rest) := rfl
  rw [h0]
  cases hr : renderLoc rest with
  | nil => exact ⟨natToDec i ++ [']'], rfl⟩
  | cons r rs =>
    by_cases hbr : r = '['
    · subst hbr
      rw [join_bracket]
      exact ⟨(natToDec i ++ [']']) ++ '[' :: rs, rfl⟩
    · rw [join_slash _ _ _ hbr]
      exact ⟨(natToDec i ++ [']']) ++ '/' :: r :: rs, rfl⟩

/-- The bracketed-index component is free of slashes. -/
theorem bracket_no_slash (i : Nat) :
    ∀ c ∈ '[' :: (natToDec i ++ [']']), c ≠ '/' := by
  intro c hc
  rcases List.mem_cons.mp hc with rfl | hc2
  · decide
  · rcases List.mem_append.mp hc2 with hc3 | hc3
    · exact ((natToDec_spec i).2.2 c hc3).2.1
    · rw [List.mem_singleton.mp hc3]
      decide

/-- Splitting the rendering of a well-formed key-headed address on slashes
recovers exactly its components. -/
theorem split_renderLoc : ∀ (n : Nat) (loc : Loc), loc.length ≤ n →
    wfSteps loc = true → loc ≠ [] → (∀ i r, loc ≠ .idx i :: r) →
    splitOnChar '/' (renderLoc loc) = partsOf loc := by
  intro n
  induction n with
  | zero =>
    intro loc hlen _ hne _
    cases loc with
    | nil => exact absurd rfl hne
    | cons s r => simp at hlen
  | succ n ih =>
    intro loc hlen hwf hne hhead
    cases loc with
    | nil => exact absurd rfl hne
    | cons s rest =>
      cases s with
      | idx i => exact absurd rfl (hhead i rest)
      | key k =>
        simp only [wfSteps, Bool.and_eq_true, Bool.not_eq_eq_eq_not, Bool.not_true,
          List.isEmpty_eq_false, List.all_eq_true] at hwf
        obtain ⟨⟨hkne, hknm⟩, hwfr⟩ := hwf
        have hkfree : ∀ c ∈ k, c ≠ '/' := fun c hc => (isNameCh_props c (hknm c hc)).1
        cases rest with
        | nil =>
          have h0 : renderLoc [.key k] = k := rfl
          rw [h0, splitOnChar_no_sep '/' k hkfree]
          rfl
        | cons s2 rest2 =>
          cases s2 with
          | key k2 =>
            have hwfr2 := hwfr
            simp only [wfSteps, Bool.and_eq_true, Bool.not_eq_eq_eq_not,
              Bool.not_true, List.isEmpty_eq_false, List.all_eq_true] at hwfr2
            obtain ⟨⟨hk2ne, hk2nm⟩, -⟩ := hwfr2
            obtain ⟨c2, ds, hds, hc2mem⟩ := renderLoc_key_head2 k2 hk2ne rest2
            have hrw : renderLoc (.key k :: .key k2 :: rest2) =
                k ++ '/' :: renderLoc (.key k2 :: rest2) := by
              have h0 : renderLoc (.key k :: .key k2 :: rest2) =
                  join k (renderLoc (.key k2 :: rest2)) := rfl
              rw [h0, hds, join_slash _ _ _ (isNameCh_props c2 (hk2nm c2 hc2mem)).2]
            rw [hrw, splitOnChar_sep '/' k _ hkfree]
            have hih := ih (.key k2 :: rest2) (by simp at hlen ⊢; omega) hwfr
              (by simp) (fun i r h => by simp at h)
            rw [hih]
            rfl
          | idx i =>
            have hbr : ∀ c ∈ k ++ '[' :: (natToDec i ++ [']']), c ≠ '/' := by
              intro c hc
              rcases List.mem_append.mp hc with hc2 | hc2
              · exact hkfree c hc2
              · exact bracket_no_slash i c hc2
            cases rest2 with
            | nil =>
              have hrw : renderLoc (.key k :: .idx i :: ([] : Loc)) =
                  k ++ '[' :: (natToDec i ++ [']']) := by
                have h0 : renderLoc (.key k :: .idx i :: ([] : Loc)) =
                    join k ('[' :: (natToDec i ++ [']'])) := rfl
                rw [h0, join_bracket]
              rw [hrw, splitOnChar_no_sep '/' _ hbr]
              rfl
            | cons s3 rest3 =>
              obtain ⟨k3, hk3eq⟩ : ∃ k3, s3 = .key k3 := by
                cases s3 with
                | key k3 => exact ⟨k3, rfl⟩
                | idx j => simp [wfSteps] at hwfr
              subst hk3eq
              have hwfr3 := hwfr
              simp only [wfSteps, Bool.and_eq_true, Bool.not_eq_eq_eq_not,
                Bool.not_true, List.isEmpty_eq_false, List.all_eq_true] at hwfr3
              obtain ⟨⟨hk3ne, hk3nm⟩, -⟩ := hwfr3
              obtain ⟨c3, ds, hds, hc3mem⟩ := renderLoc_key_head2 k3 hk3ne rest3
              have hrw : renderLoc (.key k :: .idx i :: .key k3 :: rest3) =
                  (k ++ '[' :: (natToDec i ++ [']'])) ++
                    '/' :: renderLoc (.key k3 :: rest3) := by
                have h0 : renderLoc (.key k :: .idx i :: .key k3 :: rest3) =
                    join k (join ('[' :: (natToDec i ++ [']']))
                      (renderLoc (.key k3 :: rest3))) := rfl
                rw [h0, hds, join_slash _ _ _ (isNameCh_props c3 (hk3nm c3 hc3mem)).2]
                rw [List.cons_append, join_bracket]
                simp
              rw [hrw, splitOnChar_sep '/' _ _ hbr]
              have hih := ih (.key k3 :: rest3) (by simp at hlen ⊢; omega) hwfr
                (by simp) (fun j r h => by simp at h)
              rw [hih]
              rfl

/-- The components of a well-formed key-headed address parse back to the
address. -/
theorem partsLoc_partsOf : ∀ (n : Nat) (loc : Loc), loc.length ≤ n →
    wfSteps loc = true → (∀ i r, loc ≠ .idx i :: r) →
    partsLoc (partsOf loc) = some loc := by
  intro n
  induction n with
  | zero =>
    intro loc hlen _ _
    have : loc = [] := by
      cases loc with
      | nil => rfl
      | cons s r => simp at hlen
    subst this
    rfl
  | succ n ih =>
    intro loc hlen hwf hhead
    cases loc with
    | nil => rfl
    | cons s rest =>
      cases s with
      | idx i => exact absurd rfl (hhead i rest)
      | key k =>
        simp only [wfSteps, Bool.and_eq_true, Bool.not_eq_eq_eq_not, Bool.not_true,
          List.isEmpty_eq_false, List.all_eq_true] at hwf
        obtain ⟨⟨hkne, hknm⟩, hwfr⟩ := hwf
        cases rest with
        | nil =>
          show partsLoc [k] = some [.key k]
          simp only [partsLoc, parseComponent_name k hkne hknm]
        | cons s2 rest2 =>
          cases s2 with
          | key k2 =>
            have hih := ih (.key k2 :: rest2) (by simp at hlen ⊢; omega)
              (by exact hwfr) (fun i r h => by simp at h)
            show partsLoc (k :: partsOf (.key k2 :: rest2)) = _
            simp only [partsLoc, parseComponent_name k hkne hknm, hih]
          | idx i =>
            have hwfr2 : wfSteps rest2 = true ∧ (∀ j r, rest2 ≠ .idx j :: r) := by
              cases rest2 with
              | nil => exact ⟨rfl, fun j r h => by simp at h⟩
              | cons s3 rest3 =>
                cases s3 with
                | key k3 => exact ⟨hwfr, fun j r h => by simp at h⟩
                | idx j => simp [wfSteps] at hwfr
            have hih := ih rest2 (by simp at hlen ⊢; omega) hwfr2.1 hwfr2.2
            show partsLoc ((k ++ '[' :: (natToDec i ++ [']'])) :: partsOf rest2) = _
            simp only [partsLoc, parseComponent_indexed k i hkne hknm, hih]

/-- When the parsed steps of a path navigate to a string leaf, the
read-only walker reaches exactly that address and string. -/
theorem resolveLoc_of_getLoc : ∀ (parts : List Str) (x : Nbt) (loc : Loc) (v : Str),
    partsLoc parts = some loc → getLoc x loc = some (.str v) →
    resolveLoc x parts = .ok (loc, v) := by
  intro parts
  induction parts with
  | nil =>
    intro x loc v hp hg
    simp only [partsLoc, Option.some_inj] at hp
    subst hp
    simp only [getLoc, Option.some_inj] at hg
    subst hg
    rfl
  | cons p rest ih =>
    intro x loc v hp hg
    simp only [partsLoc] at hp
    cases hpc : parseComponent p with
    | none =>
      rw [hpc] at hp
      simp at hp
    | some nio =>
      obtain ⟨name, idxO⟩ := nio
      rw [hpc] at hp
      cases hpl : partsLoc rest with
      | none =>
        rw [hpl] at hp
        cases idxO <;> simp at hp
      | some l =>
        rw [hpl] at hp
        cases idxO with
        | none =>
          simp only [Option.some_inj] at hp
          subst hp
          cases x with
          | compound m =>
            simp only [getLoc] at hg
            cases hl : lookupC m name with
            | none =>
              rw [hl] at hg
              simp at hg
            | some elem =>
              rw [hl] at hg
              simp only [resolveLoc, hpc, hl]
              rw [ih elem l v hpl hg]
              rfl
          | str s => simp [getLoc] at hg
          | list xs => simp [getLoc] at hg
          | other nn => simp [getLoc] at hg
        | some i =>
          simp only [Option.some_inj] at hp
          subst hp
          cases x with
          | compound m =>
            simp only [getLoc] at hg
            cases hl : lookupC m name with
            | none =>
              rw [hl] at hg
              simp at hg
            | some elem =>
              rw [hl] at hg
              cases elem with
              | list xs =>
                simp only [getLoc] at hg
                cases hx : xs[i]? with
                | none =>
                  rw [hx] at hg
                  simp at hg
                | some y =>
                  rw [hx] at hg
                  have hix : i < xs.length := by
                    by_contra hc
                    rw [List.getElem?_eq_none (by omega)] at hx
                    exact Option.noConfusion hx
                  have hy : xs.get ⟨i, hix⟩ = y := by
                    rw [List.getElem?_eq_getElem hix] at hx
                    simpa using hx
                  simp only [resolveLoc, hpc, hl, dif_pos hix, hy]
                  rw [ih y l v hpl hg]
                  rfl
              | str s2 => simp [getLoc] at hg
              | compound m2 => simp [getLoc] at hg
              | other n2 => simp [getLoc] at hg
          | str s => simp [getLoc] at hg
          | list xs => simp [getLoc] at hg
          | other nn => simp [getLoc] at hg

/-- Emission of the compound half of findStrings, pair by pair. -/
theorem findStringsEntries_mem : ∀ (l : List (Str × Nbt)) (p v : Str),
    (p, v) ∈ findStringsEntries l ↔
      ∃ k x p2, (k, x) ∈ l ∧ (p2, v) ∈ findStrings x ∧ p = join k p2 := by
  intro l
  induction l with
  | nil =>
    intro p v
    simp [findStringsEntries]
  | cons e rest ih =>
    intro p v
    obtain ⟨k0, x0⟩ := e
    have heq : findStringsEntries ((k0, x0) :: rest) =
        (findStrings x0).map (fun pv => (join k0 pv.1, pv.2)) ++
          findStringsEntries rest := by
      simp [findStringsEntries]
    rw [heq]
    simp only [List.mem_append, List.mem_map, ih]
    constructor
    · rintro (⟨⟨p2, v2⟩, hm, he⟩ | ⟨k, x, p2, hk, hm, hp⟩)
      · rw [Prod.mk.injEq] at he
        obtain ⟨hp, hv⟩ := he
        subst hv
        exact ⟨k0, x0, p2, List.mem_cons_self _ _, hm, hp.symm⟩
      · exact ⟨k, x, p2, List.mem_cons_of_mem _ hk, hm, hp⟩
    · rintro ⟨k, x, p2, hk, hm, hp⟩
      rcases List.mem_cons.mp hk with he | hk2
      · rw [Prod.mk.injEq] at he
        obtain ⟨h1, h2⟩ := he
        subst h1
        subst h2
        exact Or.inl ⟨(p2, v), hm, by rw [hp]⟩
      · exact Or.inr ⟨k, x, p2, hk2, hm, hp⟩

/-- Emission of the list half of findStrings with its running index. -/
theorem findStringsElems_mem : ∀ (xs : List Nbt) (i : Nat) (p v : Str),
    (p, v) ∈ findStringsElems i xs ↔
      ∃ j x p2, xs[j]? = some x ∧ (p2, v) ∈ findStrings x ∧
        p = join ('[' :: (natToDec (i + j) ++ [']'])) p2 := by
  intro xs
  induction xs with
  | nil =>
    intro i p v
    simp [findStringsElems]
  | cons a rest ih =>
    intro i p v
    have heq : findStringsElems i (a :: rest) =
        (findStrings a).map
            (fun pv => (join ('[' :: (natToDec i ++ [']'])) pv.1, pv.2)) ++
          findStringsElems (i + 1) rest := by
      simp [findStringsElems]
    rw [heq]
    simp only [List.mem_append, List.mem_map, ih (i + 1)]
    constructor
    · rintro (⟨⟨p2, v2⟩, hm, he⟩ | ⟨j, x, p2, hj, hm, hp⟩)
      · rw [Prod.mk.injEq] at he
        obtain ⟨hp, hv⟩ := he
        subst hv
        refine ⟨0, a, p2, by simp, hm, ?_⟩
        rw [Nat.add_zero]
        exact hp.symm
      · refine ⟨j + 1, x, p2, by simpa using hj, hm, ?_⟩
        rw [hp, show i + (j + 1) = i + 1 + j from by omega]
    · rintro ⟨j, x, p2, hj, hm, hp⟩
      cases j with
      | zero =>
        simp only [List.getElem?_cons_zero, Option.some_inj] at hj
        subst hj
        refine Or.inl ⟨(p2, v), hm, ?_⟩
        rw [hp, Nat.add_zero]
      | succ j2 =>
        simp only [List.getElem?_cons_succ] at hj
        refine Or.inr ⟨j2, x, p2, hj, hm, ?_⟩
        rw [hp, show i + (j2 + 1) = i + 1 + j2 from by omega]

/-- Kind agreement of the head of an emitted address with its tree. -/
def headOk : Nbt → Loc → Prop
  | .str _, loc => loc = []
  | .compound _, loc => ∃ k r, loc = .key k :: r
  | .list _, loc => ∃ i r, loc = .idx i :: r
  | .other _, _ => True

/-- Sizes of NBT trees are positive. -/
theorem sizeOf_nbt_pos (x : Nbt) : 0 < sizeOf x := by
  cases x <;> simp_arith

/-- Every pair findStrings emits from a good tree names a string leaf at
a well-formed address whose rendering is the emitted path, and the head
step of the address matches the kind of the tree. -/
theorem findStrings_to_loc : ∀ (n : Nat) (x : Nbt), sizeOf x ≤ n →
    goodNbt x = true → ∀ p v, (p, v) ∈ findStrings x →
      ∃ loc, getLoc x loc = some (.str v) ∧ p = renderLoc loc ∧
        wfSteps loc = true ∧ headOk x loc := by
  intro n
  induction n with
  | zero =>
    intro x hs _ p v _
    have := sizeOf_nbt_pos x
    omega
  | succ n ih =>
    intro x hs hg p v hm
    cases x with
    | str s =>
      simp only [findStrings, List.mem_singleton, Prod.mk.injEq] at hm
      obtain ⟨hp, hv⟩ := hm
      subst hp
      subst hv
      exact ⟨[], rfl, rfl, rfl, rfl⟩
    | other nn =>
      simp [findStrings] at hm
    | compound m =>
      have hge : goodEntries m = true := by simpa [goodNbt] using hg
      have hm2 : (p, v) ∈ findStringsEntries (sortEntries m) := by
        simpa [findStrings] using hm
      rw [findStringsEntries_mem] at hm2
      obtain ⟨k, x2, p2, hk, hmx, hp⟩ := hm2
      have hkm : (k, x2) ∈ m := (sortEntries_perm m).mem_iff.mp hk
      have hprops := (goodEntries_props m).mp hge
      obtain ⟨hkne, hknm, hgx⟩ := hprops.1 (k, x2) hkm
      have hsz : sizeOf x2 ≤ n := by
        have h1 := List.sizeOf_lt_of_mem hkm
        simp only [Nbt.compound.sizeOf_spec] at hs
        simp only [Prod.mk.sizeOf_spec] at h1
        omega
      obtain ⟨loc2, hget, hrender, hwf2, hhead2⟩ := ih x2 hsz hgx p2 v hmx
      refine ⟨.key k :: loc2, ?_, ?_, ?_, ⟨k, loc2, rfl⟩⟩
      · simp only [getLoc, lookupC_good_mem m k x2 hge hkm]
        exact hget
      · rw [hp, hrender]
        rfl
      · simp only [wfSteps, Bool.and_eq_true]
        refine ⟨⟨?_, ?_⟩, hwf2⟩
        · simp [hkne]
        · rw [List.all_eq_true]
          exact hknm
    | list xs =>
      have hgel : goodElems xs = true := by simpa [goodNbt] using hg
      have hm2 : (p, v) ∈ findStringsElems 0 xs := by
        simpa [findStrings] using hm
      rw [findStringsElems_mem] at hm2
      obtain ⟨j, x2, p2, hj, hmx, hp⟩ := hm2
      have hxmem : x2 ∈ xs := List.getElem?_mem hj
      obtain ⟨hgx, hnl⟩ := goodElems_mem xs x2 hgel hxmem
      have hsz : sizeOf x2 ≤ n := by
        have h1 := List.sizeOf_lt_of_mem hxmem
        simp only [Nbt.list.sizeOf_spec] at hs
        omega
      obtain ⟨loc2, hget, hrender, hwf2, hhead2⟩ := ih x2 hsz hgx p2 v hmx
      refine ⟨.idx j :: loc2, ?_, ?_, ?_, ⟨j, loc2, rfl⟩⟩
      · simp only [getLoc, hj]
        exact hget
      · rw [hp, hrender, Nat.zero_add]
        rfl
      · cases x2 with
        | str s2 =>
          have hl2 : loc2 = [] := hhead2
          subst hl2
          rfl
        | compound m2 =>
          obtain ⟨k2, r2, hl⟩ := hhead2
          subst hl
          show wfSteps (.idx j :: .key k2 :: r2) = true
          rw [show wfSteps (.idx j :: .key k2 :: r2) =
            wfSteps (.key k2 :: r2) from rfl]
          exact hwf2
        | list ys => exact absurd rfl (hnl ys)
        | other n2 => simp [findStrings] at hmx

/-- C1 (amended): over decoded trees whose compound keys are nonempty,
free of slash and opening bracket, and distinct, and which never nest a
list directly inside a list, every (path, value) pair the extract
enumeration emits feeds back through patchString as an exact no-op — the
tree unchanged, the updates counter untouched, no error — and replaying
the complete extracted pair list over the tree leaves it identical, so a
second extraction reproduces the first.  (The unrestricted original
claim is refuted by the nested-list counterexample, whose emitted path
k[0][0] cannot be re-parsed by dirRE.) -/
theorem extract_patch_roundtrip :
    (∀ (m : List (Str × Nbt)) (p v : Str),
       goodNbt (.compound m) = true →
       (p, v) ∈ findStrings (.compound m) →
       patchString (.compound m) p v = ⟨.compound m, 0, none⟩) ∧
    (∀ (m : List (Str × Nbt)),
       goodNbt (.compound m) = true →
       (findStrings (.compound m)).foldl
         (fun t pv => (patchString t pv.1 pv.2).nbt) (.compound m) =
         .compound m) := by
  have hmain : ∀ (m : List (Str × Nbt)) (p v : Str),
      goodNbt (.compound m) = true →
      (p, v) ∈ findStrings (.compound m) →
      patchString (.compound m) p v = ⟨.compound m, 0, none⟩ := by
    intro m p v hg hm
    obtain ⟨loc, hget, hrender, hwf, hhead⟩ :=
      findStrings_to_loc (sizeOf (Nbt.compound m)) (.compound m) (le_refl _) hg p v hm
    obtain ⟨k, r, hl⟩ := hhead
    apply patchString_noop
    have hne : loc ≠ [] := by rw [hl]; simp
    have hnidx : ∀ i r2, loc ≠ .idx i :: r2 := by
      intro i r2 h
      rw [hl] at h
      simp at h
    have hsplit := split_renderLoc loc.length loc (le_refl _) hwf hne hnidx
    have hparts := partsLoc_partsOf loc.length loc (le_refl _) hwf hnidx
    rw [resolvePath_eq, hrender, hsplit,
      resolveLoc_of_getLoc (partsOf loc) _ loc v hparts hget]
    rfl
  refine ⟨hmain, ?_⟩
  intro m hg
  have hfold : ∀ (l : List (Str × Str)),
      (∀ pv ∈ l, (pv.1, pv.2) ∈ findStrings (.compound m)) →
      l.foldl (fun t pv => (patchString t pv.1 pv.2).nbt) (.compound m) =
        .compound m := by
    intro l
    induction l with
    | nil => intro _; rfl
    | cons pv rest ih2 =>
      intro hmem
      simp only [List.foldl_cons]
      rw [hmain m pv.1 pv.2 hg (hmem pv (by simp))]
      exact ih2 (fun q hq => hmem q (List.mem_cons_of_mem _ hq))
  exact hfold (findStrings (.compound m)) (fun pv hpv => hpv)

/-- Counterexample to C1 as stated: from a list nested directly inside a
list, extract emits the path k[0][0], and patchString cannot parse that
component back (dirRE allows at most one bracket group), so the
round-trip fails with a parse error instead of a no-op. -/
theorem roundtrip_nested_list_cex :
    (['k', '[', '0', ']', '[', '0', ']'], ['v']) ∈
        findStrings (.compound [(['k'], .list [.list [.str ['v']]])]) ∧
    (patchString (.compound [(['k'], .list [.list [.str ['v']]])])
        ['k', '[', '0', ']', '[', '0', ']'] ['v']).err = some .parseErr := by
  constructor
  · simp [findStrings, findStringsEntries, findStringsElems, sortEntries,
      insertEntry, join, natToDec, natToDecAux, digitCh]
  · rfl

/-- Witness for C1 (amended) at a concrete input: the one-leaf compound
round-trips its own extraction. -/
theorem extract_patch_roundtrip_witness :
    patchString (.compound [(['a'], Nbt.str ['x'])]) ['a'] ['x'] =
      ⟨.compound [(['a'], Nbt.str ['x'])], 0, none⟩ ∧
    (findStrings (.compound [(['a'], Nbt.str ['x'])])).foldl
      (fun t pv => (patchString t pv.1 pv.2).nbt)
      (.compound [(['a'], Nbt.str ['x'])]) =
      .compound [(['a'], Nbt.str ['x'])] :=
  ⟨extract_patch_roundtrip.1 [(['a'], Nbt.str ['x'])] ['a'] ['x'] rfl
    (by simp [findStrings, findStringsEntries, sortEntries, insertEntry, join]),
   extract_patch_roundtrip.2 [(['a'], Nbt.str ['x'])] rfl⟩

end Mcstrings
